import Mathlib

/-!
# Verification of the Cutlist solver core (`src/lib/solver.rs`)

Shallow embedding of the solver: the `f32` dimensions are modelled as `ℚ`
(the source only adds, subtracts, multiplies, divides and compares them),
mutation is modelled by explicit state passing, and the fallible allocator
returns `Option`.  Rust's stable `sort_by` is modelled with Mathlib's
`List.insertionSort`, which produces the same (unique) stable order for a
total preorder.  The `rand_pcg`/`rand` shuffle source is not part of the
repository's sources; attempts are therefore parameterised by an abstract
stream of shuffles `σ : ℕ → List Cut → List Cut`, and theorems that depend
on the shuffle being a permutation take that as a hypothesis
(`ShuffleValid`).
-/

namespace Cutlist

/-- `model::Cut` (model.rs): a cut specification carrying a repetition
count.  `count` is `i32 >= 1` in the source, modelled as `ℕ`. -/
structure MCut where
  length : ℚ
  width : ℚ
  count : ℕ
  name : String
deriving DecidableEq, Repr

/-- `model::Board` (model.rs): a board-stock template. -/
structure MBoard where
  length : ℚ
  width : ℚ
  id : String
deriving DecidableEq, Repr

/-- `model::Input` (model.rs): the parsed problem.  The field the solver
reads as `model.spacing` (the per-cut outset, default 0). -/
structure Input where
  spacing : ℚ
  boards : List MBoard
  cutlist : List MCut
deriving DecidableEq, Repr

/-- `solver::Cut` (solver.rs:6-11). -/
structure Cut where
  length : ℚ
  width : ℚ
  id : String
deriving DecidableEq, Repr

/-- `Cut::area` (solver.rs:49-51). -/
def Cut.area (c : Cut) : ℚ := c.width * c.length

/-- `Cut::from` (solver.rs:32-39): inflate a model cut by the outset. -/
def Cut.ofModel (cm : MCut) (outset : ℚ) : Cut :=
  ⟨cm.length + outset, cm.width + outset, cm.name⟩

/-- `solver::CrosscutStack` (solver.rs:286-289). -/
structure CrosscutStack where
  stack : List Cut
deriving DecidableEq, Repr

namespace CrosscutStack

/-- `CrosscutStack::new` (solver.rs:291-295). -/
def new : CrosscutStack := ⟨[]⟩

/-- `Stack::length` for CrosscutStack (solver.rs:313-315): sum of cut
lengths. -/
def length (s : CrosscutStack) : ℚ := (s.stack.map Cut.length).sum

/-- `Stack::width` for CrosscutStack (solver.rs:318-324): running max of
cut widths, starting from 0. -/
def width (s : CrosscutStack) : ℚ :=
  s.stack.foldl (fun acc c => max acc c.width) 0

/-- `Stack::is_empty` for CrosscutStack (solver.rs:326-328). -/
def isEmpty (s : CrosscutStack) : Bool := s.stack.isEmpty

/-- `Stack::used_area` for CrosscutStack (solver.rs:330-336). -/
def usedArea (s : CrosscutStack) : ℚ :=
  s.stack.foldl (fun acc c => acc + c.width * c.length) 0

/-- `Stack::area` default method (solver.rs:59-61). -/
def area (s : CrosscutStack) : ℚ := s.length * s.width

/-- `Stack::score` default method (solver.rs:67-78). -/
def score (s : CrosscutStack) : ℚ :=
  if ¬ s.isEmpty then (if 0 < s.area then s.usedArea / s.area else 0) else 0

/-- `Stack::accept` for CrosscutStack (solver.rs:298-300): push. -/
def accept (s : CrosscutStack) (c : Cut) : CrosscutStack := ⟨s.stack ++ [c]⟩

/-- `Stack::remove` for CrosscutStack (solver.rs:302-309): if an equal cut
is present, retain all cuts different from it and report true. -/
def remove (s : CrosscutStack) (c : Cut) : Bool × CrosscutStack :=
  if c ∈ s.stack then (true, ⟨s.stack.filter (fun x => x ≠ c)⟩)
  else (false, s)

end CrosscutStack

/-- `solver::RipStack` (solver.rs:209-212).  (The field name `stacks` is
written with guillemets because Mathlib reserves the bare token.) -/
structure RipStack where
  «stacks» : List CrosscutStack
deriving DecidableEq, Repr

namespace RipStack

/-- `RipStack::new` (solver.rs:214-217). -/
def new : RipStack := ⟨[]⟩

/-- `RipStack::best_stack_for_cut` (solver.rs:219-237): the body is
`None` unconditionally (the remainder of the function is commented out in
the source). -/
def bestStackForCut (_r : RipStack) (_c : Cut) : Option ℕ := none

/-- `Stack::accept` for RipStack (solver.rs:241-251): since
`best_stack_for_cut` always returns `None`, a fresh `CrosscutStack`
holding the single cut is pushed. -/
def accept (r : RipStack) (c : Cut) : RipStack :=
  match r.bestStackForCut c with
  | some _ => r
  | none => ⟨r.stacks ++ [CrosscutStack.new.accept c]⟩

/-- Loop of `Stack::remove` for RipStack (solver.rs:253-260): mutate the
first crosscut stack that reports a successful removal. -/
def removeGo (c : Cut) : List CrosscutStack → Option (List CrosscutStack)
  | [] => none
  | s :: rest =>
    let p := s.remove c
    if p.1 then some (p.2 :: rest)
    else (removeGo c rest).map (fun l => s :: l)

/-- `Stack::remove` for RipStack (solver.rs:253-260). -/
def remove (r : RipStack) (c : Cut) : Bool × RipStack :=
  match removeGo c r.stacks with
  | some l => (true, ⟨l⟩)
  | none => (false, r)

/-- `Stack::length` for RipStack (solver.rs:264-270): running max of the
crosscut stack lengths, starting from 0. -/
def length (r : RipStack) : ℚ :=
  r.stacks.foldl (fun acc s => max acc s.length) 0

/-- `Stack::width` for RipStack (solver.rs:273-275): sum of the crosscut
stack widths. -/
def width (r : RipStack) : ℚ := (r.stacks.map CrosscutStack.width).sum

/-- `Stack::is_empty` for RipStack (solver.rs:277-279). -/
def isEmpty (r : RipStack) : Bool := r.stacks.isEmpty

/-- `Stack::used_area` for RipStack (solver.rs:281-283). -/
def usedArea (r : RipStack) : ℚ := (r.stacks.map CrosscutStack.usedArea).sum

/-- `Stack::area` default method (solver.rs:59-61). -/
def area (r : RipStack) : ℚ := r.length * r.width

/-- `Stack::score` default method (solver.rs:67-78). -/
def score (r : RipStack) : ℚ :=
  if ¬ r.isEmpty then (if 0 < r.area then r.usedArea / r.area else 0) else 0

end RipStack

/-- `solver::Board` (solver.rs:97-103). -/
structure Board where
  length : ℚ
  width : ℚ
  id : String
  «stacks» : List RipStack
deriving DecidableEq, Repr

instance : Inhabited Board := ⟨⟨0, 0, "", []⟩⟩

/-- `From<&model::Board> for Board` (solver.rs:105-114). -/
def Board.ofModel (t : MBoard) : Board := ⟨t.length, t.width, t.id, []⟩

/-- Replace the element at index `i` (models in-place mutation of
`self.stacks[i]`). -/
def listModify {α : Type} : List α → ℕ → (α → α) → List α
  | [], _, _ => []
  | x :: xs, 0, f => f x :: xs
  | x :: xs, n + 1, f => x :: listModify xs n f

namespace Board

/-- `Board::allocated_length` (solver.rs:152-156). -/
def allocatedLength (b : Board) : ℚ :=
  b.stacks.foldl (fun acc r => acc + r.length) 0

/-- `Board::unallocated_length` (solver.rs:159-161). -/
def unallocatedLength (b : Board) : ℚ := b.length - b.allocatedLength

/-- The selection loop of `Board::best_stack_for_cut` (solver.rs:172-182),
carrying the running index.  The accumulator `none` models the initial
state `best_stack_index = None, best_stack_length_difference = f32::MAX`:
any actual difference compares below `f32::MAX`. -/
def bestFoldGo (b : Board) (c : Cut) : ℕ → List RipStack → Option (ℕ × ℚ) → Option (ℕ × ℚ)
  | _, [], acc => acc
  | i, r :: rest, acc =>
    let acc' :=
      if r.width + c.width < b.width then
        let d := |c.length - r.length|
        match acc with
        | none => some (i, d)
        | some q => if d < q.2 then some (i, d) else acc
      else acc
    bestFoldGo b c (i + 1) rest acc'

/-- `Board::best_stack_for_cut` (solver.rs:165-192): prefer a fresh stack
while unallocated length remains; otherwise pick the qualifying stack of
closest length, discarded when the best length difference is at least half
the cut length. -/
def bestStackForCut (b : Board) (c : Cut) : Option ℕ :=
  if c.length ≤ b.unallocatedLength then none
  else
    match bestFoldGo b c 0 b.stacks none with
    | some q => if q.2 < c.length / 2 then some q.1 else none
    | none => none

/-- `Board::accept` (solver.rs:124-149), returning the success flag and
the mutated board.  On overflow of the board length after inserting into
an existing stack, the insertion is rolled back via `remove` and the cut
is rejected. -/
def accept (b : Board) (c : Cut) : Bool × Board :=
  if b.length < c.length ∨ b.width < c.width then (false, b)
  else
    match b.bestStackForCut c with
    | some i =>
      let b' : Board := { b with «stacks» := listModify b.stacks i (fun r => r.accept c) }
      if b.length < b'.allocatedLength then
        (false, { b' with «stacks» := listModify b'.stacks i (fun r => (r.remove c).2) })
      else (true, b')
    | none =>
      if c.length ≤ b.unallocatedLength then
        (true, { b with «stacks» := b.stacks ++ [RipStack.new.accept c] })
      else (false, b)

/-- `Board::can_accept` (solver.rs:117-121). -/
def canAccept (b : Board) (c : Cut) : Bool :=
  decide (c.width ≤ b.width) && decide (c.length ≤ b.length) &&
    ((b.bestStackForCut c).isSome || decide (c.length ≤ b.unallocatedLength))

/-- `Board::score` (solver.rs:194-204): product of the stack scores, or
`none` for a board with no stacks. -/
def score (b : Board) : Option ℚ :=
  if b.stacks.isEmpty then none
  else some (b.stacks.foldl (fun acc r => acc * r.score) 1)

end Board

/-- `solver::score` (solver.rs:341-346): product of the defined board
scores. -/
def score (boards : List Board) : ℚ :=
  (boards.filterMap Board.score).foldl (fun acc s => acc * s) 1

/-- `is_a_solution_possible` (solver.rs:348-361): returns false as soon
as some cut is wider than SOME board template (the double loop returns on
the first pair with `cut.width > board.width`). -/
def isASolutionPossible (m : Input) : Bool :=
  m.cutlist.all fun c => m.boards.all fun t => decide (c.width ≤ t.width)

/-- `best_board_for_cut` (solver.rs:371-381): first board whose
`can_accept` holds.  (The `cut_ranges` parameter of the source is unused
by the body and omitted.) -/
def bestBoardForCut (boards : List Board) (c : Cut) : Option ℕ :=
  boards.findIdx? (fun b => b.canAccept c)

/-- `vend_new_board_for_cut` (solver.rs:384-400): stable-sort the
templates by ascending width and take the first strictly exceeding the
cut in both dimensions.  (`cut_ranges` is unused and omitted.) -/
def vendNewBoardForCut (m : Input) (c : Cut) : Option Board :=
  ((m.boards.insertionSort (fun a b => a.width ≤ b.width)).find?
      (fun t => decide (c.width < t.width) && decide (c.length < t.length))).map
    Board.ofModel

/-- Fallback scan of `generate` (solver.rs:414-419): try `accept` on every
board in order, keeping the mutations of failed attempts, returning the
success flag and the mutated board list. -/
def tryAcceptAll (c : Cut) : List Board → Bool × List Board
  | [] => (false, [])
  | b :: rest =>
    let p := b.accept c
    if p.1 then (true, p.2 :: rest)
    else
      let q := tryAcceptAll c rest
      (q.1, p.2 :: q.2)

/-- One iteration of the `'cutlist` loop of `generate` (solver.rs:406-436):
preferred-board lookup, fallback scan, then vending; `none` when the cut
cannot be placed anywhere. -/
def placeCut (m : Input) (boards : List Board) (c : Cut) : Option (List Board) :=
  let step1 :=
    match bestBoardForCut boards c with
    | some i =>
      let p := (boards.getD i default).accept c
      (p.1, boards.set i p.2)
    | none => (false, boards)
  if step1.1 then some step1.2
  else
    let step2 := tryAcceptAll c step1.2
    if step2.1 then some step2.2
    else
      match vendNewBoardForCut m c with
      | some nb =>
        let p := nb.accept c
        if p.1 then some (step2.2 ++ [p.2]) else none
      | none => none

/-- The `'cutlist` loop of `generate` consuming the (already reversed)
cut sequence head first. -/
def generateLoop (m : Input) : List Cut → List Board → Option (List Board)
  | [], boards => some boards
  | c :: rest, boards =>
    match placeCut m boards c with
    | some boards' => generateLoop m rest boards'
    | none => none

/-- `generate` (solver.rs:402-439): the source pops cuts from the END of
its working vector, so the list is reversed before the head-first loop. -/
def generate (m : Input) (cuts : List Cut) : Option (List Board) :=
  generateLoop m cuts.reverse []

/-- Cut expansion in `compute` (solver.rs:452-477): each model cut is
expanded into `count` instances inflated by `model.spacing`. -/
def expandCutlist (m : Input) : List Cut :=
  m.cutlist.flatMap fun cm => List.replicate cm.count (Cut.ofModel cm m.spacing)

/-- The cut order used by the legacy `attempts == 0` path
(solver.rs:481-485): stable sort by ascending cut area. -/
def legacyCutOrder (m : Input) : List Cut :=
  (expandCutlist m).insertionSort (fun a b => a.area ≤ b.area)

/-- The cut list in play at attempt `i` (solver.rs:490-495): the working
vector is shuffled in place before each attempt, so attempt `i` sees the
composition of the first `i+1` shuffles applied to the expanded list. -/
def attemptList (σ : ℕ → List Cut → List Cut) (l0 : List Cut) : ℕ → List Cut
  | 0 => σ 0 l0
  | n + 1 => σ (n + 1) (attemptList σ l0 n)

/-- The successful attempt results, in attempt order (solver.rs:490-495). -/
def successList (σ : ℕ → List Cut → List Cut) (m : Input) (attempts : ℕ) :
    List (List Board) :=
  (List.range attempts).filterMap fun i =>
    generate m (attemptList σ (expandCutlist m) i)

/-- `compute` (solver.rs:442-512), parameterised by the stream of
shuffles `σ` produced by the seeded generator.  After the feasibility
gate, successes are stable-sorted by ascending board count, truncated to
`min result_count successes`, and the survivors stable-sorted by
descending score. -/
def computeWith (σ : ℕ → List Cut → List Cut) (m : Input)
    (attempts resultCount : ℕ) : Option (List (List Board)) :=
  if isASolutionPossible m then
    let results :=
      if attempts = 0 then
        match generate m (legacyCutOrder m) with
        | some r => [r]
        | none => []
      else successList σ m attempts
    if results.isEmpty then none
    else
      let rc := min resultCount results.length
      some (((results.insertionSort
          (fun a b : List Board => a.length ≤ b.length)).take rc).insertionSort
        (fun a b => score b ≤ score a))
  else none

/-- A valid shuffle stream: every shuffle yields a permutation of its
input (rand 0.8's Fisher–Yates shuffle). -/
def ShuffleValid (σ : ℕ → List Cut → List Cut) : Prop :=
  ∀ i l, List.Perm (σ i l) l

/-- The identity shuffle stream: one possible run of the shuffler. -/
def idShuffle : ℕ → List Cut → List Cut := fun _ l => l

/-- The stream that reverses the working list at each attempt: another
possible run of the shuffler. -/
def revShuffle : ℕ → List Cut → List Cut := fun _ l => l.reverse

/-- Input well-formedness per §6 of the spec, enforced upstream by the
parser (model.rs rejects non-positive dimensions): positive template and
cut dimensions, non-negative spacing. -/
def Input.WF (m : Input) : Prop :=
  (∀ t ∈ m.boards, 0 < t.length ∧ 0 < t.width) ∧
    (∀ cm ∈ m.cutlist, 0 < cm.length ∧ 0 < cm.width) ∧ 0 ≤ m.spacing

/-- All cuts stored on a board, across its rip stacks and their crosscut
stacks. -/
def cutsOfBoard (b : Board) : List Cut :=
  b.stacks.flatMap fun r => r.stacks.flatMap CrosscutStack.stack

/-- All cuts stored across a solution's boards. -/
def cutsOfSolution (sol : List Board) : List Cut := sol.flatMap cutsOfBoard

/-! ## Concrete instances used by counterexamples and witnesses -/

/-- Two templates of equal width 7 — `S` of length 18, `B` of length 21 —
and two cuts `a` (20×4) and `b` (16×2).  Processing `a` first packs both
cuts into one board `B` (score 14/15); processing `b` first vends `S` for
`b`, which is too short for `a`, yielding two perfectly used boards
(score 1). -/
def M1 : Input := ⟨0, [⟨18, 7, "S"⟩, ⟨21, 7, "B"⟩], [⟨20, 4, 1, "a"⟩, ⟨16, 2, 1, "b"⟩]⟩

def cutA : Cut := ⟨20, 4, "a"⟩

def cutB : Cut := ⟨16, 2, "b"⟩

/-- Single board `B` holding both cuts in one rip stack. -/
def sol1 : List Board := [⟨21, 7, "B", [⟨[⟨[cutA]⟩, ⟨[cutB]⟩]⟩]⟩]

/-- Boards `S` (holding `b`) and `B` (holding `a`). -/
def sol2 : List Board := [⟨18, 7, "S", [⟨[⟨[cutB]⟩]⟩]⟩, ⟨21, 7, "B", [⟨[⟨[cutA]⟩]⟩]⟩]

/-- The end-to-end example of §8 of the spec: one 96×8 template `A`, two
18×3 `Apron` cuts, spacing 0. -/
def M5 : Input := ⟨0, [⟨96, 8, "A"⟩], [⟨18, 3, 2, "Apron"⟩]⟩

def apronCut : Cut := ⟨18, 3, "Apron"⟩

/-- What the allocator actually produces on `M5`: board `A` with TWO rip
stacks, each holding one Apron cut. -/
def apronBoard : Board := ⟨96, 8, "A", [⟨[⟨[apronCut]⟩]⟩, ⟨[⟨[apronCut]⟩]⟩]⟩

/-- Feasible model rejected by the width pre-check: templates of widths 4
and 8, one cut of width 5 (5 ≤ 8, yet 5 > 4 trips the buggy check). -/
def M3 : Input := ⟨0, [⟨10, 4, "Small"⟩, ⟨100, 8, "Big"⟩], [⟨20, 5, 1, "wide"⟩]⟩

/-- The vending example of §8 of the spec. -/
def M8 : Input := ⟨0, [⟨10, 4, "Small"⟩, ⟨100, 4, "Big"⟩], [⟨50, 3, 1, "c"⟩]⟩

def cut8 : Cut := ⟨50, 3, "c"⟩

/-- A catalog whose only template matches the cut's dimensions exactly. -/
def M8eq : Input := ⟨0, [⟨50, 3, "Exact"⟩], [⟨50, 3, 1, "c"⟩]⟩

/-- One template, one cut: the attempts = 0 legacy path places it. -/
def M10 : Input := ⟨0, [⟨96, 8, "A"⟩], [⟨18, 3, 1, "x"⟩]⟩

def cut10 : Cut := ⟨18, 3, "x"⟩

def sol10 : List Board := [⟨96, 8, "A", [⟨[⟨[cut10]⟩]⟩]⟩]

/-- A board with one rip stack (one 10×2 cut) and ample unallocated
length: a qualifying lane exists for another 10×2 cut, yet `accept`
starts a new lane. -/
def cb2 : Board := ⟨100, 10, "X", [⟨[⟨[⟨10, 2, "u"⟩]⟩]⟩]⟩

def c2cut : Cut := ⟨10, 2, "v"⟩

/-- A full board (9 allocated of length 10) with a close-length lane, used
to witness the amended lane-selection rule. -/
def cb2w : Board := ⟨10, 5, "W", [⟨[⟨[⟨9, 1, "p"⟩]⟩]⟩]⟩

def c2wcut : Cut := ⟨8, 1, "q"⟩

/-- A 10×5 board with lanes of lengths 5 and 4 (allocated 9): joining the
7×1 cut below into the closer lane raises that lane's length to 7 and the
allocated length to 11 > 10, triggering the overflow rollback. -/
def cb2r : Board := ⟨10, 5, "R", [⟨[⟨[⟨5, 1, "p1"⟩]⟩]⟩, ⟨[⟨[⟨4, 1, "p2"⟩]⟩]⟩]⟩

def c2rcut : Cut := ⟨7, 1, "q"⟩

/-- All cuts stored in a rip stack. -/
def cutsOfRip (r : RipStack) : List Cut := r.stacks.flatMap CrosscutStack.stack

/-- Invariant maintained by every board the allocator manipulates:
non-negative dimensions, length containment, width containment of every
rip stack, at most one cut per crosscut stack, and non-negative cut
dimensions. -/
def BoardInv (b : Board) : Prop :=
  0 ≤ b.length ∧ 0 ≤ b.width ∧
    b.allocatedLength ≤ b.length ∧
    (∀ r ∈ b.stacks, r.width ≤ b.width) ∧
    (∀ r ∈ b.stacks, ∀ s ∈ r.stacks, s.stack.length ≤ 1) ∧
    (∀ x ∈ cutsOfBoard b, 0 ≤ x.length ∧ 0 ≤ x.width)

/-- The success list `results` built by `compute` (solver.rs:479-496). -/
def resultsOf (σ : ℕ → List Cut → List Cut) (m : Input) (attempts : ℕ) :
    List (List Board) :=
  if attempts = 0 then
    match generate m (legacyCutOrder m) with
    | some r => [r]
    | none => []
  else successList σ m attempts

instance : IsTotal MBoard (fun a b => a.width ≤ b.width) :=
  ⟨fun a b => le_total a.width b.width⟩

instance : IsTrans MBoard (fun a b => a.width ≤ b.width) :=
  ⟨fun _ _ _ h1 h2 => le_trans h1 h2⟩

def wideCut : Cut := ⟨20, 5, "wide"⟩

/-- The placement that `generate` finds for `M3` when it is allowed to
run: the wide cut fits template `Big`. -/
def solM3 : List Board := [⟨100, 8, "Big", [⟨[⟨[wideCut]⟩]⟩]⟩]

/-- Modelled from the spec and the dependency boundary: the `rand_pcg`
and `rand` crates are not part of this repository's sources, so the
seeded generator is abstracted as `seedStream`, mapping a seed to the
stream of shuffles the generator produces (§4.4: a fresh shuffle per
attempt).  An invocation of `compute` additionally receives the ambient
process entropy available at call time; the source never reads it — it
seeds its generator with the constant `12345` (solver.rs:488) — so the
body ignores `ambientEntropy`. -/
def computeInvocation (seedStream : ℕ → ℕ → List Cut → List Cut)
    (_ambientEntropy : ℕ) (m : Input) (attempts resultCount : ℕ) :
    Option (List (List Board)) :=
  computeWith (seedStream 12345) m attempts resultCount

instance : IsTotal (List Board) (fun a b => score b ≤ score a) :=
  ⟨fun a b => le_total (score b) (score a)⟩

instance : IsTrans (List Board) (fun a b => score b ≤ score a) :=
  ⟨fun _ _ _ h1 h2 => le_trans h2 h1⟩

/-! ## Generic fold and list lemmas -/

section FoldLemmas

variable {α β : Type}

lemma foldlMax_shift (f : α → ℚ) (l : List α) :
    ∀ i j : ℚ, l.foldl (fun a x => max a (f x)) (max i j) =
      max i (l.foldl (fun a x => max a (f x)) j) := by
  induction l with
  | nil => intro i j; rfl
  | cons x xs ih =>
    intro i j
    simp only [List.foldl_cons]
    rw [max_assoc, ih]

lemma foldlMax_cons (f : α → ℚ) (x : α) (l : List α) :
    (x :: l).foldl (fun a y => max a (f y)) 0 =
      max (f x) (l.foldl (fun a y => max a (f y)) 0) := by
  simp only [List.foldl_cons]
  rw [max_comm 0 (f x), foldlMax_shift]

lemma foldlMax_append_singleton (f : α → ℚ) (l : List α) (x : α) :
    (l ++ [x]).foldl (fun a y => max a (f y)) 0 =
      max (l.foldl (fun a y => max a (f y)) 0) (f x) := by
  rw [List.foldl_append]
  rfl

lemma foldlMax_nonneg (f : α → ℚ) (l : List α) :
    0 ≤ l.foldl (fun a y => max a (f y)) 0 := by
  induction l with
  | nil => exact le_refl 0
  | cons x xs ih => rw [foldlMax_cons]; exact le_trans ih (le_max_right _ _)

lemma foldlMax_le (f : α → ℚ) (l : List α) (B : ℚ) (hB : 0 ≤ B)
    (h : ∀ x ∈ l, f x ≤ B) : l.foldl (fun a y => max a (f y)) 0 ≤ B := by
  induction l with
  | nil => exact hB
  | cons x xs ih =>
    rw [foldlMax_cons]
    exact max_le (h x (List.mem_cons_self x xs))
      (ih fun y hy => h y (List.mem_cons_of_mem _ hy))

lemma le_foldlMax (f : α → ℚ) (l : List α) (x : α) (hx : x ∈ l) :
    f x ≤ l.foldl (fun a y => max a (f y)) 0 := by
  induction l with
  | nil => cases hx
  | cons z zs ih =>
    rw [foldlMax_cons]
    rcases List.mem_cons.1 hx with h | h
    · subst h; exact le_max_left _ _
    · exact le_trans (ih h) (le_max_right _ _)

lemma foldlAdd_eq (f : α → ℚ) (l : List α) :
    ∀ i : ℚ, l.foldl (fun a x => a + f x) i = i + (l.map f).sum := by
  induction l with
  | nil => intro i; simp
  | cons x xs ih =>
    intro i
    simp only [List.foldl_cons, List.map_cons, List.sum_cons, ih]
    ring

lemma listModify_length (l : List α) (i : ℕ) (f : α → α) :
    (listModify l i f).length = l.length := by
  induction l generalizing i with
  | nil => rfl
  | cons x xs ih =>
    cases i with
    | zero => rfl
    | succ n => simpa [listModify] using ih n

lemma listModify_of_le (l : List α) (i : ℕ) (f : α → α) (h : l.length ≤ i) :
    listModify l i f = l := by
  induction l generalizing i with
  | nil => rfl
  | cons x xs ih =>
    cases i with
    | zero => exact absurd h (by simp)
    | succ n =>
      simp only [listModify]
      rw [ih n (Nat.le_of_succ_le_succ h)]

lemma listModify_getElem? (l : List α) (i : ℕ) (f : α → α) :
    (listModify l i f)[i]? = l[i]?.map f := by
  induction l generalizing i with
  | nil => rfl
  | cons x xs ih =>
    cases i with
    | zero => simp [listModify]
    | succ n => simpa [listModify] using ih n

lemma listModify_getElem?_ne (l : List α) (i j : ℕ) (f : α → α) (h : j ≠ i) :
    (listModify l i f)[j]? = l[j]? := by
  induction l generalizing i j with
  | nil => rfl
  | cons x xs ih =>
    cases i with
    | zero =>
      cases j with
      | zero => exact absurd rfl h
      | succ k => simp [listModify]
    | succ n =>
      cases j with
      | zero => simp [listModify]
      | succ k => simpa [listModify] using ih n k (fun hk => h (by rw [hk]))

lemma listModify_map_sum (g : α → ℚ) (l : List α) (i : ℕ) (f : α → α)
    (h : i < l.length) :
    ((listModify l i f).map g).sum + g (l.get ⟨i, h⟩) =
      (l.map g).sum + g (f (l.get ⟨i, h⟩)) := by
  induction l generalizing i with
  | nil => cases h
  | cons x xs ih =>
    cases i with
    | zero =>
      have h0 : (x :: xs).get ⟨0, h⟩ = x := rfl
      simp only [listModify, List.map_cons, List.sum_cons, h0]
      ring
    | succ n =>
      have hn : n < xs.length := Nat.lt_of_succ_lt_succ h
      have h0 : (x :: xs).get ⟨n + 1, h⟩ = xs.get ⟨n, hn⟩ := rfl
      simp only [listModify, List.map_cons, List.sum_cons, h0]
      rw [add_assoc, add_assoc]
      congr 1
      exact ih n hn

lemma listModify_mem (l : List α) (i : ℕ) (f : α → α) (y : α)
    (hy : y ∈ listModify l i f) :
    y ∈ l ∨ ∃ h : i < l.length, y = f (l.get ⟨i, h⟩) := by
  induction l generalizing i with
  | nil => cases hy
  | cons x xs ih =>
    cases i with
    | zero =>
      rcases List.mem_cons.1 hy with h | h
      · exact Or.inr ⟨Nat.succ_pos _, h⟩
      · exact Or.inl (List.mem_cons_of_mem _ h)
    | succ n =>
      rcases List.mem_cons.1 hy with h | h
      · exact Or.inl (h ▸ List.mem_cons_self x xs)
      · rcases ih n h with h' | ⟨hn, h'⟩
        · exact Or.inl (List.mem_cons_of_mem _ h')
        · exact Or.inr ⟨Nat.succ_lt_succ hn, h'⟩

lemma listModify_flatMap_perm_cons (g : α → List β) (l : List α) (i : ℕ)
    (f : α → α) (h : i < l.length) (c : β)
    (hp : List.Perm (g (f (l.get ⟨i, h⟩))) (c :: g (l.get ⟨i, h⟩))) :
    List.Perm ((listModify l i f).flatMap g) (c :: l.flatMap g) := by
  induction l generalizing i with
  | nil => cases h
  | cons x xs ih =>
    cases i with
    | zero =>
      simp only [listModify, List.flatMap_cons]
      exact List.Perm.append_right _ hp
    | succ n =>
      have hn : n < xs.length := Nat.lt_of_succ_lt_succ h
      simp only [listModify, List.flatMap_cons]
      exact List.Perm.trans (List.Perm.append_left _ (ih n hn hp)) List.perm_middle

lemma listModify_flatMap_perm (g : α → List β) (l : List α) (i : ℕ)
    (f : α → α) (h : i < l.length)
    (hp : List.Perm (g (f (l.get ⟨i, h⟩))) (g (l.get ⟨i, h⟩))) :
    List.Perm ((listModify l i f).flatMap g) (l.flatMap g) := by
  induction l generalizing i with
  | nil => cases h
  | cons x xs ih =>
    cases i with
    | zero =>
      simp only [listModify, List.flatMap_cons]
      exact List.Perm.append_right _ hp
    | succ n =>
      have hn : n < xs.length := Nat.lt_of_succ_lt_succ h
      simp only [listModify, List.flatMap_cons]
      exact List.Perm.append_left _ (ih n hn hp)

lemma list_set_eq_listModify (l : List α) (i : ℕ) (b : α) :
    l.set i b = listModify l i (fun _ => b) := by
  induction l generalizing i with
  | nil => rfl
  | cons x xs ih =>
    cases i with
    | zero => rfl
    | succ n => simpa [listModify] using ih n

end FoldLemmas

/-! ## Structural lemmas about stacks -/


lemma CrosscutStack.length_nonneg (s : CrosscutStack)
    (hs : ∀ x ∈ s.stack, 0 ≤ x.length) : 0 ≤ s.length := by
  refine List.sum_nonneg ?_
  intro q hq
  rcases List.mem_map.1 hq with ⟨x, hx, rfl⟩
  exact hs x hx

lemma CrosscutStack.width_nonneg (s : CrosscutStack) : 0 ≤ s.width :=
  foldlMax_nonneg Cut.width s.stack

lemma CrosscutStack.length_filter_le (s : CrosscutStack) (p : Cut → Bool)
    (hs : ∀ x ∈ s.stack, 0 ≤ x.length) :
    (CrosscutStack.mk (s.stack.filter p)).length ≤ s.length := by
  unfold CrosscutStack.length
  refine List.Sublist.sum_le_sum (List.Sublist.map _ (List.filter_sublist _)) ?_
  intro q hq
  rcases List.mem_map.1 hq with ⟨x, hx, rfl⟩
  exact hs x hx

lemma CrosscutStack.width_filter_le (s : CrosscutStack) (p : Cut → Bool) :
    (CrosscutStack.mk (s.stack.filter p)).width ≤ s.width := by
  refine foldlMax_le Cut.width _ _ (CrosscutStack.width_nonneg s) ?_
  intro x hx
  exact le_foldlMax Cut.width _ _ (List.mem_of_mem_filter hx)

lemma CrosscutStack.le_length_of_mem (s : CrosscutStack) (c : Cut)
    (hc : c ∈ s.stack) (hs : ∀ x ∈ s.stack, 0 ≤ x.length) :
    c.length ≤ s.length := by
  refine List.single_le_sum ?_ _ (List.mem_map.2 ⟨c, hc, rfl⟩)
  intro q hq
  rcases List.mem_map.1 hq with ⟨x, hx, rfl⟩
  exact hs x hx

lemma CrosscutStack.singleton_length (c : Cut) :
    (CrosscutStack.mk [c]).length = c.length := by
  simp [CrosscutStack.length]

lemma CrosscutStack.singleton_width (c : Cut) :
    (CrosscutStack.mk [c]).width = max 0 c.width := by
  simp [CrosscutStack.width]

lemma RipStack.accept_eq (r : RipStack) (c : Cut) :
    r.accept c = RipStack.mk (r.stacks ++ [CrosscutStack.mk [c]]) := rfl

lemma RipStack.length_mk_cons (s : CrosscutStack) (L : List CrosscutStack) :
    (RipStack.mk (s :: L)).length = max s.length (RipStack.mk L).length :=
  foldlMax_cons CrosscutStack.length s L

lemma RipStack.length_mk_append_singleton (L : List CrosscutStack) (s : CrosscutStack) :
    (RipStack.mk (L ++ [s])).length = max (RipStack.mk L).length s.length :=
  foldlMax_append_singleton CrosscutStack.length L s

lemma RipStack.ripLength_nonneg (r : RipStack) : 0 ≤ r.length :=
  foldlMax_nonneg CrosscutStack.length r.stacks

lemma RipStack.width_mk_cons (s : CrosscutStack) (L : List CrosscutStack) :
    (RipStack.mk (s :: L)).width = s.width + (RipStack.mk L).width := by
  simp [RipStack.width]

lemma RipStack.ripWidth_nonneg (r : RipStack) : 0 ≤ r.width := by
  refine List.sum_nonneg ?_
  intro q hq
  rcases List.mem_map.1 hq with ⟨s, hs, rfl⟩
  exact CrosscutStack.width_nonneg s

lemma RipStack.accept_length (r : RipStack) (c : Cut) :
    (r.accept c).length = max r.length c.length := by
  rw [RipStack.accept_eq]
  have h := RipStack.length_mk_append_singleton r.stacks (CrosscutStack.mk [c])
  rw [CrosscutStack.singleton_length] at h
  exact h

lemma RipStack.accept_width (r : RipStack) (c : Cut) :
    (r.accept c).width = r.width + max 0 c.width := by
  rw [RipStack.accept_eq]
  simp [RipStack.width, CrosscutStack.singleton_width]

lemma RipStack.accept_cuts (r : RipStack) (c : Cut) :
    cutsOfRip (r.accept c) = cutsOfRip r ++ [c] := by
  rw [RipStack.accept_eq]
  simp [cutsOfRip]

/-- Behaviour of the rollback `remove` right after an `accept` that pushed
the singleton crosscut stack `[c]`: the removal always succeeds, never
increases the rip stack's length (given non-negative cut lengths) nor its
width, restores the cut multiset, and preserves the at-most-one-cut shape
of the crosscut stacks. -/
lemma removeGo_accept_spec (c : Cut) :
    ∀ S : List CrosscutStack,
      (∀ s ∈ S, ∀ x ∈ s.stack, 0 ≤ x.length) →
      (∀ s ∈ S, s.stack.length ≤ 1) →
      ∃ L', RipStack.removeGo c (S ++ [CrosscutStack.mk [c]]) = some L' ∧
        (RipStack.mk L').length ≤ (RipStack.mk S).length ∧
        (RipStack.mk L').width ≤ (RipStack.mk (S ++ [CrosscutStack.mk [c]])).width ∧
        List.Perm (L'.flatMap CrosscutStack.stack) (S.flatMap CrosscutStack.stack) ∧
        (∀ s ∈ L', s.stack.length ≤ 1) := by
  intro S
  induction S with
  | nil =>
    intro _ _
    refine ⟨[CrosscutStack.mk (([c] : List Cut).filter (fun x => x ≠ c))], ?_, ?_, ?_, ?_, ?_⟩
    · simp [RipStack.removeGo, CrosscutStack.remove]
    · simp [RipStack.length, CrosscutStack.length]
    · simp [RipStack.width, CrosscutStack.width]
    · simp
    · intro s hs
      rcases List.mem_singleton.1 hs with rfl
      simp
  | cons s S' ih =>
    intro hng hsm
    by_cases hcon : c ∈ s.stack
    · -- the head stack contains an equal cut; by the ≤1 invariant it is [c]
      have hs1 : s.stack = [c] := by
        have hlen : s.stack.length ≤ 1 := hsm s (List.mem_cons_self s S')
        have hpos : 0 < s.stack.length := List.length_pos.2 (List.ne_nil_of_mem hcon)
        have h1 : s.stack.length = 1 := le_antisymm hlen hpos
        rcases List.length_eq_one.1 h1 with ⟨a, ha⟩
        rw [ha] at hcon ⊢
        rcases List.mem_singleton.1 hcon with rfl
        rfl
      have hrm : s.remove c = (true, CrosscutStack.mk (s.stack.filter (fun x => x ≠ c))) := by
        simp [CrosscutStack.remove, hcon]
      have hfil : s.stack.filter (fun x => x ≠ c) = [] := by
        rw [hs1]
        simp
      refine ⟨CrosscutStack.mk [] :: (S' ++ [CrosscutStack.mk [c]]), ?_, ?_, ?_, ?_, ?_⟩
      · simp only [List.cons_append, RipStack.removeGo, hrm, hfil]
        simp [hs1]
      · rw [RipStack.length_mk_cons, RipStack.length_mk_cons,
          RipStack.length_mk_append_singleton, CrosscutStack.singleton_length]
        have h0 : (CrosscutStack.mk ([] : List Cut)).length = 0 := rfl
        rw [h0]
        have hcs : c.length ≤ s.length :=
          CrosscutStack.le_length_of_mem s c hcon (hng s (List.mem_cons_self s S'))
        refine max_le ?_ (max_le ?_ ?_)
        · exact le_trans (RipStack.ripLength_nonneg (RipStack.mk S')) (le_max_right _ _)
        · exact le_max_right _ _
        · exact le_trans hcs (le_max_left _ _)
      · rw [RipStack.width_mk_cons]
        have h0 : (CrosscutStack.mk ([] : List Cut)).width = 0 := rfl
        rw [h0, zero_add]
        have : (RipStack.mk ((s :: S') ++ [CrosscutStack.mk [c]])).width =
            s.width + (RipStack.mk (S' ++ [CrosscutStack.mk [c]])).width := by
          rw [List.cons_append, RipStack.width_mk_cons]
        rw [this]
        exact le_add_of_nonneg_left (CrosscutStack.width_nonneg s)
      · simp only [List.flatMap_cons, List.flatMap_append, List.flatMap_cons,
          List.flatMap_nil, List.append_nil, List.nil_append, hs1]
        exact List.perm_append_comm
      · intro t ht
        rcases List.mem_cons.1 ht with rfl | ht'
        · simp
        · rcases List.mem_append.1 ht' with h | h
          · exact hsm _ (List.mem_cons_of_mem _ h)
          · rcases List.mem_singleton.1 h with rfl
            simp
    · -- head untouched, recurse
      have hrm : s.remove c = (false, s) := by
        simp [CrosscutStack.remove, hcon]
      rcases ih (fun t ht => hng t (List.mem_cons_of_mem _ ht))
          (fun t ht => hsm t (List.mem_cons_of_mem _ ht)) with
        ⟨L'', hgo, hlen, hwid, hperm, hsm'⟩
      refine ⟨s :: L'', ?_, ?_, ?_, ?_, ?_⟩
      · simp [List.cons_append, RipStack.removeGo, hrm, hgo]
      · rw [RipStack.length_mk_cons, RipStack.length_mk_cons]
        exact max_le (le_max_left _ _) (le_trans hlen (le_max_right _ _))
      · rw [RipStack.width_mk_cons, List.cons_append, RipStack.width_mk_cons]
        exact add_le_add_left hwid _
      · simp only [List.flatMap_cons]
        exact List.Perm.append_left _ hperm
      · intro t ht
        rcases List.mem_cons.1 ht with rfl | ht'
        · exact hsm _ (List.mem_cons_self _ _)
        · exact hsm' t ht'

/-! ## Specification of the lane-selection loop -/

lemma bestFoldGo_some (b : Board) (c : Cut) :
    ∀ (l : List RipStack) (i₀ : ℕ) (acc : Option (ℕ × ℚ)) (j : ℕ) (d : ℚ),
      Board.bestFoldGo b c i₀ l acc = some (j, d) →
      acc = some (j, d) ∨ ∃ k, ∃ hk : k < l.length, j = i₀ + k ∧
        (l.get ⟨k, hk⟩).width + c.width < b.width ∧
        d = |c.length - (l.get ⟨k, hk⟩).length| := by
  intro l
  induction l with
  | nil => intro i₀ acc j d h; exact Or.inl h
  | cons r rest ih =>
    intro i₀ acc j d h
    rw [Board.bestFoldGo] at h
    by_cases hQ : r.width + c.width < b.width
    · rw [if_pos hQ] at h
      rcases hacc : acc with _ | q
      · subst hacc
        rcases ih (i₀ + 1) (some (i₀, |c.length - r.length|)) j d h with h' | ⟨k, hk, hj, hQ', hd⟩
        · rcases Prod.mk.injEq .. ▸ Option.some.inj h' with ⟨rfl, rfl⟩
          exact Or.inr ⟨0, Nat.succ_pos _, (Nat.add_zero i₀).symm, hQ, rfl⟩
        · exact Or.inr ⟨k + 1, Nat.succ_lt_succ hk, by omega, hQ', hd⟩
      · subst hacc
        dsimp only at h
        by_cases hlt : |c.length - r.length| < q.2
        · rw [if_pos hlt] at h
          rcases ih (i₀ + 1) (some (i₀, |c.length - r.length|)) j d h with h' | ⟨k, hk, hj, hQ', hd⟩
          · rcases Prod.mk.injEq .. ▸ Option.some.inj h' with ⟨rfl, rfl⟩
            exact Or.inr ⟨0, Nat.succ_pos _, (Nat.add_zero i₀).symm, hQ, rfl⟩
          · exact Or.inr ⟨k + 1, Nat.succ_lt_succ hk, by omega, hQ', hd⟩
        · rw [if_neg hlt] at h
          rcases ih (i₀ + 1) (some q) j d h with h' | ⟨k, hk, hj, hQ', hd⟩
          · exact Or.inl h'
          · exact Or.inr ⟨k + 1, Nat.succ_lt_succ hk, by omega, hQ', hd⟩
    · rw [if_neg hQ] at h
      rcases ih (i₀ + 1) acc j d h with h' | ⟨k, hk, hj, hQ', hd⟩
      · exact Or.inl h'
      · exact Or.inr ⟨k + 1, Nat.succ_lt_succ hk, by omega, hQ', hd⟩

lemma bestFoldGo_min (b : Board) (c : Cut) :
    ∀ (l : List RipStack) (i₀ : ℕ) (acc : Option (ℕ × ℚ)) (j : ℕ) (d : ℚ),
      Board.bestFoldGo b c i₀ l acc = some (j, d) →
      (∀ k (hk : k < l.length), (l.get ⟨k, hk⟩).width + c.width < b.width →
        d ≤ |c.length - (l.get ⟨k, hk⟩).length|) ∧
      (∀ j₀ d₀, acc = some (j₀, d₀) → d ≤ d₀) := by
  intro l
  induction l with
  | nil =>
    intro i₀ acc j d h
    refine ⟨fun k hk => absurd hk (Nat.not_lt_zero k), ?_⟩
    intro j₀ d₀ hacc
    rw [hacc] at h
    rcases Prod.mk.injEq .. ▸ Option.some.inj h with ⟨rfl, rfl⟩
    exact le_rfl
  | cons r rest ih =>
    intro i₀ acc j d h
    rw [Board.bestFoldGo] at h
    by_cases hQ : r.width + c.width < b.width
    · rw [if_pos hQ] at h
      have key : ∀ acc', Board.bestFoldGo b c (i₀ + 1) rest acc' = some (j, d) →
          (∀ j₀ d₀, acc' = some (j₀, d₀) → d ≤ d₀) →
          (∀ k (hk : k < rest.length), (rest.get ⟨k, hk⟩).width + c.width < b.width →
            d ≤ |c.length - (rest.get ⟨k, hk⟩).length|) := by
        intro acc' h' _
        exact (ih (i₀ + 1) acc' j d h').1
      rcases hacc : acc with _ | q
      · subst hacc
        have hd0 : d ≤ |c.length - r.length| :=
          (ih (i₀ + 1) (some (i₀, |c.length - r.length|)) j d h).2 _ _ rfl
        refine ⟨?_, ?_⟩
        · intro k hk hQk
          cases k with
          | zero => exact hd0
          | succ n =>
            exact (ih (i₀ + 1) _ j d h).1 n (Nat.lt_of_succ_lt_succ hk) hQk
        · intro j₀ d₀ hcon
          cases hcon
      · subst hacc
        dsimp only at h
        by_cases hlt : |c.length - r.length| < q.2
        · rw [if_pos hlt] at h
          have hd0 : d ≤ |c.length - r.length| :=
            (ih (i₀ + 1) (some (i₀, |c.length - r.length|)) j d h).2 _ _ rfl
          refine ⟨?_, ?_⟩
          · intro k hk hQk
            cases k with
            | zero => exact hd0
            | succ n =>
              exact (ih (i₀ + 1) _ j d h).1 n (Nat.lt_of_succ_lt_succ hk) hQk
          · intro j₀ d₀ hq
            rcases Prod.mk.injEq .. ▸ Option.some.inj hq with ⟨rfl, rfl⟩
            exact le_trans hd0 (le_of_lt hlt)
        · rw [if_neg hlt] at h
          have hdq : d ≤ q.2 := (ih (i₀ + 1) (some q) j d h).2 q.1 q.2 rfl
          refine ⟨?_, ?_⟩
          · intro k hk hQk
            cases k with
            | zero => exact le_trans hdq (le_of_not_lt hlt)
            | succ n =>
              exact (ih (i₀ + 1) _ j d h).1 n (Nat.lt_of_succ_lt_succ hk) hQk
          · intro j₀ d₀ hq
            rcases Prod.mk.injEq .. ▸ Option.some.inj hq with ⟨rfl, rfl⟩
            exact hdq
    · rw [if_neg hQ] at h
      refine ⟨?_, (ih (i₀ + 1) acc j d h).2⟩
      intro k hk hQk
      cases k with
      | zero => exact absurd hQk hQ
      | succ n =>
        exact (ih (i₀ + 1) acc j d h).1 n (Nat.lt_of_succ_lt_succ hk) hQk

/-- Full characterisation of a successful lane selection
(`Board::best_stack_for_cut` returning `Some i`): the board had less
unallocated length than the cut, index `i` is valid and qualifies on
width, its length difference is under half the cut length, and it
minimises the length difference among all qualifying stacks. -/
lemma bestStackForCut_some (b : Board) (c : Cut) (i : ℕ)
    (h : b.bestStackForCut c = some i) :
    b.unallocatedLength < c.length ∧
    ∃ hi : i < b.stacks.length,
      (b.stacks.get ⟨i, hi⟩).width + c.width < b.width ∧
      |c.length - (b.stacks.get ⟨i, hi⟩).length| < c.length / 2 ∧
      ∀ k (hk : k < b.stacks.length),
        (b.stacks.get ⟨k, hk⟩).width + c.width < b.width →
        |c.length - (b.stacks.get ⟨i, hi⟩).length| ≤
          |c.length - (b.stacks.get ⟨k, hk⟩).length| := by
  rw [Board.bestStackForCut] at h
  by_cases hun : c.length ≤ b.unallocatedLength
  · rw [if_pos hun] at h; cases h
  · rw [if_neg hun] at h
    refine ⟨lt_of_not_le hun, ?_⟩
    rcases hgo : Board.bestFoldGo b c 0 b.stacks none with _ | q
    · rw [hgo] at h; cases h
    · rw [hgo] at h
      dsimp only at h
      by_cases hhalf : q.2 < c.length / 2
      · rw [if_pos hhalf] at h
        rcases bestFoldGo_some b c b.stacks 0 none q.1 q.2 (by rw [hgo]) with
          h' | ⟨k, hk, hj, hQ, hd⟩
        · cases h'
        · have hiq : i = q.1 := (Option.some.inj h).symm
          have hkq : q.1 = k := by omega
          subst hiq
          rw [hkq]
          refine ⟨hkq ▸ hk, hQ, ?_, ?_⟩
          · rw [← hd]; exact hhalf
          · intro k' hk' hQ'
            rw [← hd]
            exact (bestFoldGo_min b c b.stacks 0 none q.1 q.2 (by rw [hgo])).1 k' hk' hQ'
      · rw [if_neg hhalf] at h; cases h

/-! ## The board invariant and `accept` -/


lemma Board.allocatedLength_eq (b : Board) :
    b.allocatedLength = (b.stacks.map RipStack.length).sum := by
  unfold Board.allocatedLength
  rw [foldlAdd_eq RipStack.length, zero_add]

lemma cutsOfBoard_eq (b : Board) : cutsOfBoard b = b.stacks.flatMap cutsOfRip := rfl

lemma listModify_comp {α : Type} (l : List α) (i : ℕ) (f g : α → α) :
    listModify (listModify l i f) i g = listModify l i (fun x => g (f x)) := by
  induction l generalizing i with
  | nil => rfl
  | cons x xs ih =>
    cases i with
    | zero => rfl
    | succ n => simpa [listModify] using ih n

lemma cutsOfRip_mem_nonneg (b : Board) (r : RipStack) (hr : r ∈ b.stacks)
    (hng : ∀ x ∈ cutsOfBoard b, 0 ≤ x.length ∧ 0 ≤ x.width) :
    ∀ s ∈ r.stacks, ∀ x ∈ s.stack, 0 ≤ x.length := by
  intro s hs x hx
  refine (hng x ?_).1
  rw [cutsOfBoard_eq]
  exact List.mem_flatMap.2 ⟨r, hr, List.mem_flatMap.2 ⟨s, hs, hx⟩⟩

/-- Combined facts about the rollback `remove` performed right after an
`accept` on the same rip stack. -/
lemma RipStack.remove_after_accept (r : RipStack) (c : Cut)
    (hng : ∀ s ∈ r.stacks, ∀ x ∈ s.stack, 0 ≤ x.length)
    (hsm : ∀ s ∈ r.stacks, s.stack.length ≤ 1) :
    ((r.accept c).remove c).2.length ≤ r.length ∧
      ((r.accept c).remove c).2.width ≤ (r.accept c).width ∧
      List.Perm (cutsOfRip ((r.accept c).remove c).2) (cutsOfRip r) ∧
      (∀ s ∈ ((r.accept c).remove c).2.stacks, s.stack.length ≤ 1) := by
  rcases removeGo_accept_spec c r.stacks hng hsm with ⟨L', hgo, hlen, hwid, hperm, hsm'⟩
  have hacc : r.accept c = RipStack.mk (r.stacks ++ [CrosscutStack.mk [c]]) :=
    RipStack.accept_eq r c
  have hrm : ((r.accept c).remove c).2 = RipStack.mk L' := by
    rw [hacc]
    unfold RipStack.remove
    rw [hgo]
  rw [hrm]
  exact ⟨hlen, by rw [hacc]; exact hwid, hperm, hsm'⟩

lemma Board.accept_nofit (b : Board) (c : Cut)
    (h : b.length < c.length ∨ b.width < c.width) : b.accept c = (false, b) := by
  unfold Board.accept
  rw [if_pos h]

lemma Board.accept_join (b : Board) (c : Cut) (i : ℕ)
    (hfit : ¬(b.length < c.length ∨ b.width < c.width))
    (hbs : b.bestStackForCut c = some i)
    (hov : ¬ b.length < (Board.mk b.length b.width b.id
      (listModify b.stacks i (fun r => r.accept c))).allocatedLength) :
    b.accept c = (true, Board.mk b.length b.width b.id
      (listModify b.stacks i (fun r => r.accept c))) := by
  unfold Board.accept
  rw [if_neg hfit, hbs]
  dsimp only
  rw [if_neg hov]

lemma Board.accept_rollback (b : Board) (c : Cut) (i : ℕ)
    (hfit : ¬(b.length < c.length ∨ b.width < c.width))
    (hbs : b.bestStackForCut c = some i)
    (hov : b.length < (Board.mk b.length b.width b.id
      (listModify b.stacks i (fun r => r.accept c))).allocatedLength) :
    b.accept c = (false, Board.mk b.length b.width b.id
      (listModify (listModify b.stacks i (fun r => r.accept c)) i
        (fun r => (r.remove c).2))) := by
  unfold Board.accept
  rw [if_neg hfit, hbs]
  dsimp only
  rw [if_pos hov]

lemma Board.accept_newlane (b : Board) (c : Cut)
    (hfit : ¬(b.length < c.length ∨ b.width < c.width))
    (hbs : b.bestStackForCut c = none)
    (hun : c.length ≤ b.unallocatedLength) :
    b.accept c = (true, Board.mk b.length b.width b.id
      (b.stacks ++ [RipStack.new.accept c])) := by
  unfold Board.accept
  rw [if_neg hfit, hbs]
  dsimp only
  rw [if_pos hun]

lemma Board.accept_reject (b : Board) (c : Cut)
    (hfit : ¬(b.length < c.length ∨ b.width < c.width))
    (hbs : b.bestStackForCut c = none)
    (hun : ¬ c.length ≤ b.unallocatedLength) :
    b.accept c = (false, b) := by
  unfold Board.accept
  rw [if_neg hfit, hbs]
  dsimp only
  rw [if_neg hun]

/-- `Board::accept` preserves the board invariant; a successful accept
adds exactly the accepted cut to the board's cut multiset, a failed one
leaves the multiset unchanged (even when an insertion was rolled back). -/
theorem Board.accept_spec (b : Board) (c : Cut) (hb : BoardInv b)
    (hcl : 0 ≤ c.length) (hcw : 0 ≤ c.width) :
    BoardInv (b.accept c).2 ∧
      ((b.accept c).1 = true →
        List.Perm (cutsOfBoard (b.accept c).2) (c :: cutsOfBoard b)) ∧
      ((b.accept c).1 = false →
        List.Perm (cutsOfBoard (b.accept c).2) (cutsOfBoard b)) := by
  obtain ⟨hbl, hbw, hal, hwid, hsm, hng⟩ := hb
  by_cases hfit : b.length < c.length ∨ b.width < c.width
  · rw [Board.accept_nofit b c hfit]
    exact ⟨⟨hbl, hbw, hal, hwid, hsm, hng⟩, fun h => by simp at h,
      fun _ => List.Perm.refl _⟩
  · have hfit' := hfit
    push_neg at hfit'
    obtain ⟨hclb, hcwb⟩ := hfit'
    cases hbs : b.bestStackForCut c
    · by_cases hun : c.length ≤ b.unallocatedLength
      · -- new-lane branch
        rw [Board.accept_newlane b c hfit hbs hun]
        have hnew_len : (RipStack.new.accept c).length = c.length := by
          rw [RipStack.accept_length]
          unfold RipStack.new RipStack.length
          simp [hcl]
        have hnew_wid : (RipStack.new.accept c).width = c.width := by
          rw [RipStack.accept_width]
          unfold RipStack.new RipStack.width
          simp [hcw]
        have hone : cutsOfRip (RipStack.new.accept c) = [c] := rfl
        have hcuts : cutsOfBoard (Board.mk b.length b.width b.id
            (b.stacks ++ [RipStack.new.accept c])) = cutsOfBoard b ++ [c] := by
          rw [cutsOfBoard_eq, cutsOfBoard_eq]
          show (b.stacks ++ [RipStack.new.accept c]).flatMap cutsOfRip = _
          rw [List.flatMap_append]
          simp [hone]
        refine ⟨⟨hbl, hbw, ?_, ?_, ?_, ?_⟩, ?_, ?_⟩
        · rw [Board.allocatedLength_eq]
          simp only [List.map_append, List.sum_append, List.map_cons,
            List.map_nil, List.sum_cons, List.sum_nil, hnew_len, add_zero]
          rw [← Board.allocatedLength_eq]
          have := (le_sub_iff_add_le).1 hun
          linarith [this]
        · intro r hr
          rcases List.mem_append.1 hr with h | h
          · exact hwid r h
          · rcases List.mem_singleton.1 h with rfl
            rw [hnew_wid]
            exact hcwb
        · intro r hr
          rcases List.mem_append.1 hr with h | h
          · exact hsm r h
          · rcases List.mem_singleton.1 h with rfl
            intro s hs
            have hst : (RipStack.new.accept c).stacks = [CrosscutStack.mk [c]] := rfl
            rw [hst] at hs
            rcases List.mem_singleton.1 hs with rfl
            simp
        · intro x hx
          rw [hcuts] at hx
          rcases List.mem_append.1 hx with h | h
          · exact hng x h
          · rcases List.mem_singleton.1 h with rfl
            exact ⟨hcl, hcw⟩
        · intro _
          rw [hcuts]
          exact List.perm_append_singleton c (cutsOfBoard b)
        · intro h
          simp at h
      · rw [Board.accept_reject b c hfit hbs hun]
        exact ⟨⟨hbl, hbw, hal, hwid, hsm, hng⟩, fun h => by simp at h,
          fun _ => List.Perm.refl _⟩
    · -- a stack was selected
      rename_i i
      rcases bestStackForCut_some b c i hbs with ⟨hunlt, hi, hQ, hhalf, hmin⟩
      have hr₀ : b.stacks.get ⟨i, hi⟩ ∈ b.stacks := List.get_mem b.stacks i hi
      have hjoin_wid : ((b.stacks.get ⟨i, hi⟩).accept c).width < b.width := by
        rw [RipStack.accept_width, max_eq_right hcw]
        exact hQ
      have hjoin_cuts : cutsOfRip ((b.stacks.get ⟨i, hi⟩).accept c) =
          cutsOfRip (b.stacks.get ⟨i, hi⟩) ++ [c] := RipStack.accept_cuts _ c
      by_cases hov : b.length < (Board.mk b.length b.width b.id
          (listModify b.stacks i (fun r => r.accept c))).allocatedLength
      · -- overflow: insertion rolled back
        rw [Board.accept_rollback b c i hfit hbs hov]
        rw [listModify_comp]
        rcases RipStack.remove_after_accept (b.stacks.get ⟨i, hi⟩) c
            (cutsOfRip_mem_nonneg b _ hr₀ hng)
            (hsm _ hr₀) with ⟨hrl, hrw, hrp, hrs⟩
        have hsum := listModify_map_sum RipStack.length b.stacks i
          (fun r => ((r.accept c).remove c).2) hi
        have hmem := fun (r : RipStack)
            (hr : r ∈ listModify b.stacks i (fun r => ((r.accept c).remove c).2)) =>
          listModify_mem b.stacks i _ r hr
        have hcutsp : List.Perm (cutsOfBoard (Board.mk b.length b.width b.id
            (listModify b.stacks i (fun r => ((r.accept c).remove c).2))))
            (cutsOfBoard b) := by
          rw [cutsOfBoard_eq, cutsOfBoard_eq]
          exact listModify_flatMap_perm cutsOfRip b.stacks i _ hi hrp
        refine ⟨⟨hbl, hbw, ?_, ?_, ?_, ?_⟩, ?_, ?_⟩
        · rw [Board.allocatedLength_eq]
          have h1 : (((listModify b.stacks i (fun r => ((r.accept c).remove c).2)).map
              RipStack.length).sum : ℚ) ≤ ((b.stacks.map RipStack.length).sum : ℚ) := by
            have h2 := hsum
            have h3 : RipStack.length (((b.stacks.get ⟨i, hi⟩).accept c).remove c).2 ≤
                RipStack.length (b.stacks.get ⟨i, hi⟩) := hrl
            linarith [h2, h3]
          calc (((listModify b.stacks i (fun r => ((r.accept c).remove c).2)).map
              RipStack.length).sum : ℚ) ≤ (b.stacks.map RipStack.length).sum := h1
            _ = b.allocatedLength := (Board.allocatedLength_eq b).symm
            _ ≤ b.length := hal
        · intro r hr
          rcases hmem r hr with h | ⟨hlen, rfl⟩
          · exact hwid r h
          · exact le_trans hrw (le_of_lt hjoin_wid)
        · intro r hr
          rcases hmem r hr with h | ⟨hlen, rfl⟩
          · exact hsm r h
          · exact hrs
        · intro x hx
          exact hng x (hcutsp.mem_iff.1 hx)
        · intro h
          simp at h
        · intro _
          exact hcutsp
      · -- no overflow: the cut joins the selected stack
        rw [Board.accept_join b c i hfit hbs hov]
        have hmem := fun (r : RipStack)
            (hr : r ∈ listModify b.stacks i (fun r => r.accept c)) =>
          listModify_mem b.stacks i _ r hr
        have hcutsp : List.Perm (cutsOfBoard (Board.mk b.length b.width b.id
            (listModify b.stacks i (fun r => r.accept c))))
            (c :: cutsOfBoard b) := by
          rw [cutsOfBoard_eq, cutsOfBoard_eq]
          refine listModify_flatMap_perm_cons cutsOfRip b.stacks i _ hi c ?_
          rw [hjoin_cuts]
          exact List.perm_append_singleton c _
        refine ⟨⟨hbl, hbw, le_of_not_lt hov, ?_, ?_, ?_⟩, ?_, ?_⟩
        · intro r hr
          rcases hmem r hr with h | ⟨hlen, rfl⟩
          · exact hwid r h
          · exact le_of_lt hjoin_wid
        · intro r hr
          rcases hmem r hr with h | ⟨hlen, rfl⟩
          · exact hsm r h
          · intro s hs
            rw [RipStack.accept_eq] at hs
            rcases List.mem_append.1 hs with h | h
            · exact hsm _ hr₀ s h
            · rcases List.mem_singleton.1 h with rfl
              simp
        · intro x hx
          rcases List.mem_cons.1 (hcutsp.mem_iff.1 hx) with rfl | h
          · exact ⟨hcl, hcw⟩
          · exact hng x h
        · intro _
          exact hcutsp
        · intro h
          simp at h

/-! ## Allocator soundness -/

lemma findIdx?_spec {α : Type} (p : α → Bool) (l : List α) (i : ℕ)
    (h : l.findIdx? p = some i) :
    ∃ h : i < l.length, p (l.get ⟨i, h⟩) = true := by
  rcases List.findIdx?_eq_some_iff_getElem.1 h with ⟨hi, hp, _⟩
  exact ⟨hi, hp⟩

lemma getD_eq_get {α : Type} [Inhabited α] :
    ∀ (l : List α) (i : ℕ) (h : i < l.length), l.getD i default = l.get ⟨i, h⟩ := by
  intro l
  induction l with
  | nil => intro i h; cases h
  | cons x xs ih =>
    intro i h
    cases i with
    | zero => rfl
    | succ n => exact ih n (Nat.lt_of_succ_lt_succ h)

lemma BoardInv_ofModel (t : MBoard) (hl : 0 ≤ t.length) (hw : 0 ≤ t.width) :
    BoardInv (Board.ofModel t) := by
  refine ⟨hl, hw, ?_, ?_, ?_, ?_⟩
  · rw [Board.allocatedLength_eq]
    simpa [Board.ofModel] using hl
  · intro r hr; cases hr
  · intro r hr; cases hr
  · intro x hx; cases hx

lemma vend_spec (m : Input) (hm : Input.WF m) (c : Cut) (nb : Board)
    (h : vendNewBoardForCut m c = some nb) :
    BoardInv nb ∧ cutsOfBoard nb = [] := by
  unfold vendNewBoardForCut at h
  rcases Option.map_eq_some'.1 h with ⟨t, ht, rfl⟩
  have htm : t ∈ m.boards :=
    (List.Perm.mem_iff (List.perm_insertionSort _ m.boards)).1
      (List.mem_of_find?_eq_some ht)
  rcases hm.1 t htm with ⟨hl, hw⟩
  exact ⟨BoardInv_ofModel t (le_of_lt hl) (le_of_lt hw), rfl⟩

lemma tryAcceptAll_spec (c : Cut) (hcl : 0 ≤ c.length) (hcw : 0 ≤ c.width) :
    ∀ (boards : List Board), (∀ b ∈ boards, BoardInv b) →
      (∀ b ∈ (tryAcceptAll c boards).2, BoardInv b) ∧
      ((tryAcceptAll c boards).1 = true →
        List.Perm (cutsOfSolution (tryAcceptAll c boards).2) (c :: cutsOfSolution boards)) ∧
      ((tryAcceptAll c boards).1 = false →
        List.Perm (cutsOfSolution (tryAcceptAll c boards).2) (cutsOfSolution boards)) := by
  intro boards
  induction boards with
  | nil =>
    intro _
    refine ⟨fun b hb => absurd hb (List.not_mem_nil b), ?_, ?_⟩
    · intro h; cases h
    · intro _; exact List.Perm.refl _
  | cons b rest ih =>
    intro hinv
    have hb := hinv b (List.mem_cons_self b rest)
    have hrest := fun x hx => hinv x (List.mem_cons_of_mem _ hx)
    rcases Board.accept_spec b c hb hcl hcw with ⟨hinv', htrue, hfalse⟩
    unfold tryAcceptAll
    by_cases hflag : (b.accept c).1
    · rw [if_pos hflag]
      refine ⟨?_, ?_, ?_⟩
      · intro x hx
        rcases List.mem_cons.1 hx with rfl | hx'
        · exact hinv'
        · exact hrest x hx'
      · intro _
        show List.Perm (cutsOfBoard (b.accept c).2 ++ rest.flatMap cutsOfBoard) _
        exact List.Perm.trans (List.Perm.append_right _ (htrue hflag)) (List.Perm.refl _)
      · intro hcon
        simp at hcon
    · rw [if_neg hflag]
      rcases ih hrest with ⟨ihinv, ihtrue, ihfalse⟩
      have hfb : (b.accept c).1 = false := Bool.eq_false_iff.2 hflag
      refine ⟨?_, ?_, ?_⟩
      · intro x hx
        rcases List.mem_cons.1 hx with rfl | hx'
        · exact hinv'
        · exact ihinv x hx'
      · intro hflag2
        show List.Perm (cutsOfBoard (b.accept c).2 ++
          cutsOfSolution (tryAcceptAll c rest).2)
          (c :: (cutsOfBoard b ++ cutsOfSolution rest))
        refine List.Perm.trans (List.Perm.append (hfalse hfb) (ihtrue hflag2)) ?_
        exact List.perm_middle
      · intro hflag2
        show List.Perm (cutsOfBoard (b.accept c).2 ++
          cutsOfSolution (tryAcceptAll c rest).2) _
        exact List.Perm.append (hfalse hfb) (ihfalse hflag2)

lemma fallbackVend_spec (m : Input) (hm : Input.WF m) (c : Cut)
    (hcl : 0 ≤ c.length) (hcw : 0 ≤ c.width) (boards : List Board)
    (hinv : ∀ b ∈ boards, BoardInv b) (out : List Board)
    (h : (if (tryAcceptAll c boards).1 then some (tryAcceptAll c boards).2
      else
        match vendNewBoardForCut m c with
        | some nb =>
          if (nb.accept c).1 then some ((tryAcceptAll c boards).2 ++ [(nb.accept c).2])
          else none
        | none => none) = some out) :
    (∀ b ∈ out, BoardInv b) ∧
      List.Perm (cutsOfSolution out) (c :: cutsOfSolution boards) := by
  rcases tryAcceptAll_spec c hcl hcw boards hinv with ⟨hinv2, htrue2, hfalse2⟩
  by_cases hflag : (tryAcceptAll c boards).1
  · rw [if_pos hflag] at h
    cases h
    exact ⟨hinv2, htrue2 hflag⟩
  · rw [if_neg hflag] at h
    have hfb : (tryAcceptAll c boards).1 = false := Bool.eq_false_iff.2 hflag
    cases hv : vendNewBoardForCut m c with
    | none => rw [hv] at h; cases h
    | some nb =>
      rw [hv] at h
      dsimp only at h
      rcases vend_spec m hm c nb hv with ⟨hnbinv, hnbcuts⟩
      rcases Board.accept_spec nb c hnbinv hcl hcw with ⟨hnbinv', hnbtrue, _⟩
      by_cases hflag3 : (nb.accept c).1
      · rw [if_pos hflag3] at h
        cases h
        refine ⟨?_, ?_⟩
        · intro x hx
          rcases List.mem_append.1 hx with hx' | hx'
          · exact hinv2 x hx'
          · rcases List.mem_singleton.1 hx' with rfl
            exact hnbinv'
        · have hcp : List.Perm (cutsOfBoard (nb.accept c).2) [c] := by
            have := hnbtrue hflag3
            rwa [hnbcuts] at this
          show List.Perm (cutsOfSolution ((tryAcceptAll c boards).2 ++ [(nb.accept c).2])) _
          unfold cutsOfSolution
          rw [List.flatMap_append]
          have h1 : List.Perm ((tryAcceptAll c boards).2.flatMap cutsOfBoard ++
              [(nb.accept c).2].flatMap cutsOfBoard)
              (cutsOfSolution boards ++ [c]) := by
            refine List.Perm.append (hfalse2 hfb) ?_
            simpa using hcp
          refine List.Perm.trans h1 ?_
          exact List.perm_append_singleton c _
      · rw [if_neg hflag3] at h
        cases h

lemma placeCut_spec (m : Input) (hm : Input.WF m) (boards : List Board)
    (c : Cut) (hcl : 0 ≤ c.length) (hcw : 0 ≤ c.width)
    (hinv : ∀ b ∈ boards, BoardInv b) (out : List Board)
    (h : placeCut m boards c = some out) :
    (∀ b ∈ out, BoardInv b) ∧
      List.Perm (cutsOfSolution out) (c :: cutsOfSolution boards) := by
  unfold placeCut at h
  cases hbb : bestBoardForCut boards c with
  | none =>
    rw [hbb] at h
    dsimp only at h
    exact fallbackVend_spec m hm c hcl hcw boards hinv out h
  | some i =>
    rw [hbb] at h
    dsimp only at h
    rcases findIdx?_spec _ boards i hbb with ⟨hi, _⟩
    have hget : boards.getD i default = boards.get ⟨i, hi⟩ := getD_eq_get boards i hi
    rw [hget] at h
    have hbinv : BoardInv (boards.get ⟨i, hi⟩) :=
      hinv _ (List.get_mem boards i hi)
    rcases Board.accept_spec (boards.get ⟨i, hi⟩) c hbinv hcl hcw with
      ⟨hinv', htrue, hfalse⟩
    have hset : boards.set i ((boards.get ⟨i, hi⟩).accept c).2 =
        listModify boards i (fun _ => ((boards.get ⟨i, hi⟩).accept c).2) :=
      list_set_eq_listModify boards i _
    have hinv1 : ∀ b ∈ boards.set i ((boards.get ⟨i, hi⟩).accept c).2, BoardInv b := by
      intro x hx
      rw [hset] at hx
      rcases listModify_mem boards i _ x hx with hx' | ⟨_, rfl⟩
      · exact hinv x hx'
      · exact hinv'
    by_cases hflag : ((boards.get ⟨i, hi⟩).accept c).1
    · rw [if_pos hflag] at h
      cases h
      refine ⟨hinv1, ?_⟩
      show List.Perm (cutsOfSolution (boards.set i ((boards.get ⟨i, hi⟩).accept c).2)) _
      rw [hset]
      unfold cutsOfSolution
      exact listModify_flatMap_perm_cons cutsOfBoard boards i _ hi c (htrue hflag)
    · rw [if_neg hflag] at h
      have hfb : ((boards.get ⟨i, hi⟩).accept c).1 = false := Bool.eq_false_iff.2 hflag
      have hperm1 : List.Perm
          (cutsOfSolution (boards.set i ((boards.get ⟨i, hi⟩).accept c).2))
          (cutsOfSolution boards) := by
        rw [hset]
        unfold cutsOfSolution
        exact listModify_flatMap_perm cutsOfBoard boards i _ hi (hfalse hfb)
      rcases fallbackVend_spec m hm c hcl hcw _ hinv1 out h with ⟨hoinv, hoperm⟩
      exact ⟨hoinv, List.Perm.trans hoperm (List.Perm.cons c hperm1)⟩

lemma generateLoop_spec (m : Input) (hm : Input.WF m) :
    ∀ (cuts : List Cut) (boards : List Board),
      (∀ c ∈ cuts, 0 ≤ c.length ∧ 0 ≤ c.width) →
      (∀ b ∈ boards, BoardInv b) →
      ∀ out, generateLoop m cuts boards = some out →
        (∀ b ∈ out, BoardInv b) ∧
          List.Perm (cutsOfSolution out) (cuts ++ cutsOfSolution boards) := by
  intro cuts
  induction cuts with
  | nil =>
    intro boards _ hinv out h
    cases h
    exact ⟨hinv, List.Perm.refl _⟩
  | cons c rest ih =>
    intro boards hcuts hinv out h
    unfold generateLoop at h
    cases hp : placeCut m boards c with
    | none => rw [hp] at h; cases h
    | some boards' =>
      rw [hp] at h
      rcases hcuts c (List.mem_cons_self c rest) with ⟨hcl, hcw⟩
      rcases placeCut_spec m hm boards c hcl hcw hinv boards' hp with ⟨hinv', hperm'⟩
      rcases ih boards' (fun x hx => hcuts x (List.mem_cons_of_mem _ hx)) hinv' out h
        with ⟨hoinv, hoperm⟩
      refine ⟨hoinv, ?_⟩
      refine List.Perm.trans hoperm ?_
      refine List.Perm.trans (List.Perm.append_left rest hperm') ?_
      exact List.perm_middle

/-- `generate` soundness: every produced board satisfies the invariant,
and the cut multiset across the boards is exactly the input cut list. -/
theorem generate_spec (m : Input) (hm : Input.WF m) (cuts : List Cut)
    (hcuts : ∀ c ∈ cuts, 0 ≤ c.length ∧ 0 ≤ c.width) (out : List Board)
    (h : generate m cuts = some out) :
    (∀ b ∈ out, BoardInv b) ∧ List.Perm (cutsOfSolution out) cuts := by
  unfold generate at h
  rcases generateLoop_spec m hm cuts.reverse []
      (fun c hc => hcuts c (List.mem_reverse.1 hc))
      (fun b hb => absurd hb (List.not_mem_nil b)) out h with ⟨hinv, hperm⟩
  refine ⟨hinv, ?_⟩
  refine List.Perm.trans hperm ?_
  have h0 : cutsOfSolution ([] : List Board) = [] := rfl
  rw [h0, List.append_nil]
  exact List.reverse_perm cuts

/-! ## `compute` soundness -/


lemma computeWith_def (σ : ℕ → List Cut → List Cut) (m : Input)
    (attempts resultCount : ℕ) :
    computeWith σ m attempts resultCount =
      if isASolutionPossible m then
        if (resultsOf σ m attempts).isEmpty then none
        else
          some ((((resultsOf σ m attempts).insertionSort
              (fun a b : List Board => a.length ≤ b.length)).take
                (min resultCount (resultsOf σ m attempts).length)).insertionSort
            (fun a b => score b ≤ score a))
      else none := rfl

lemma expand_nonneg (m : Input) (hm : Input.WF m) :
    ∀ c ∈ expandCutlist m, 0 ≤ c.length ∧ 0 ≤ c.width := by
  intro c hc
  rcases List.mem_flatMap.1 hc with ⟨cm, hcm, hc'⟩
  rcases List.eq_of_mem_replicate hc' with rfl
  rcases hm.2.1 cm hcm with ⟨hl, hw⟩
  have hs := hm.2.2
  constructor
  · show 0 ≤ cm.length + m.spacing
    linarith
  · show 0 ≤ cm.width + m.spacing
    linarith

lemma attemptList_perm (σ : ℕ → List Cut → List Cut) (hσ : ShuffleValid σ)
    (l0 : List Cut) : ∀ i, List.Perm (attemptList σ l0 i) l0 := by
  intro i
  induction i with
  | zero => exact hσ 0 l0
  | succ n ih => exact List.Perm.trans (hσ (n + 1) _) ih

lemma successList_mem (σ : ℕ → List Cut → List Cut) (m : Input) (attempts : ℕ)
    (sol : List Board) (h : sol ∈ successList σ m attempts) :
    ∃ i, generate m (attemptList σ (expandCutlist m) i) = some sol := by
  rcases List.mem_filterMap.1 h with ⟨i, _, hgen⟩
  exact ⟨i, hgen⟩

lemma mem_resultsOf_of_mem_output (σ : ℕ → List Cut → List Cut) (m : Input)
    (attempts resultCount : ℕ) (out : List (List Board)) (sol : List Board)
    (hout : computeWith σ m attempts resultCount = some out) (hsol : sol ∈ out) :
    sol ∈ resultsOf σ m attempts := by
  rw [computeWith_def] at hout
  by_cases hp : isASolutionPossible m
  · rw [if_pos hp] at hout
    by_cases hemp : (resultsOf σ m attempts).isEmpty
    · rw [if_pos hemp] at hout; cases hout
    · rw [if_neg hemp] at hout
      cases hout
      have h1 : sol ∈ ((resultsOf σ m attempts).insertionSort
          (fun a b : List Board => a.length ≤ b.length)).take
            (min resultCount (resultsOf σ m attempts).length) :=
        (List.Perm.mem_iff (List.perm_insertionSort _ _)).1 hsol
      have h2 := List.take_subset _ _ h1
      exact (List.Perm.mem_iff (List.perm_insertionSort _ _)).1 h2
  · rw [if_neg hp] at hout; cases hout

lemma resultsOf_spec (σ : ℕ → List Cut → List Cut) (hσ : ShuffleValid σ)
    (m : Input) (hm : Input.WF m) (attempts : ℕ) (sol : List Board)
    (h : sol ∈ resultsOf σ m attempts) :
    (∀ b ∈ sol, BoardInv b) ∧
      List.Perm (cutsOfSolution sol) (expandCutlist m) := by
  unfold resultsOf at h
  by_cases ha : attempts = 0
  · rw [if_pos ha] at h
    cases hgen : generate m (legacyCutOrder m) with
    | none => rw [hgen] at h; cases h
    | some r =>
      rw [hgen] at h
      rcases List.mem_singleton.1 h with rfl
      have hperm : List.Perm (legacyCutOrder m) (expandCutlist m) :=
        List.perm_insertionSort _ _
      have hng : ∀ c ∈ legacyCutOrder m, 0 ≤ c.length ∧ 0 ≤ c.width := by
        intro c hc
        exact expand_nonneg m hm c (hperm.mem_iff.1 hc)
      rcases generate_spec m hm _ hng sol hgen with ⟨hinv, hcuts⟩
      exact ⟨hinv, List.Perm.trans hcuts hperm⟩
  · rw [if_neg ha] at h
    rcases successList_mem σ m attempts sol h with ⟨i, hgen⟩
    have hperm : List.Perm (attemptList σ (expandCutlist m) i) (expandCutlist m) :=
      attemptList_perm σ hσ (expandCutlist m) i
    have hng : ∀ c ∈ attemptList σ (expandCutlist m) i,
        0 ≤ c.length ∧ 0 ≤ c.width := by
      intro c hc
      exact expand_nonneg m hm c (hperm.mem_iff.1 hc)
    rcases generate_spec m hm _ hng sol hgen with ⟨hinv, hcuts⟩
    exact ⟨hinv, List.Perm.trans hcuts hperm⟩

/-- Master soundness result for `compute`: every solution it returns
consists of invariant-satisfying boards, and its cut multiset is exactly
the expanded input cut list. -/
theorem computeWith_sound (σ : ℕ → List Cut → List Cut) (hσ : ShuffleValid σ)
    (m : Input) (hm : Input.WF m) (attempts resultCount : ℕ)
    (out : List (List Board))
    (hout : computeWith σ m attempts resultCount = some out) :
    ∀ sol ∈ out, (∀ b ∈ sol, BoardInv b) ∧
      List.Perm (cutsOfSolution sol) (expandCutlist m) := by
  intro sol hsol
  exact resultsOf_spec σ hσ m hm attempts sol
    (mem_resultsOf_of_mem_output σ m attempts resultCount out sol hout hsol)

/-- Removal never increases a rip stack's width: the first crosscut stack
reporting success is replaced by a filtered (hence narrower) one. -/
lemma removeGo_width_le (c : Cut) :
    ∀ (L L' : List CrosscutStack), RipStack.removeGo c L = some L' →
      (RipStack.mk L').width ≤ (RipStack.mk L).width := by
  intro L
  induction L with
  | nil => intro L' h; cases h
  | cons s rest ih =>
    intro L' h
    unfold RipStack.removeGo at h
    by_cases hcon : c ∈ s.stack
    · have hrm : s.remove c =
          (true, CrosscutStack.mk (s.stack.filter (fun x => x ≠ c))) := by
        simp [CrosscutStack.remove, hcon]
      rw [hrm] at h
      dsimp only at h
      cases h
      rw [RipStack.width_mk_cons, RipStack.width_mk_cons]
      exact add_le_add_right (CrosscutStack.width_filter_le s _) _
    · have hrm : s.remove c = (false, s) := by
        simp [CrosscutStack.remove, hcon]
      rw [hrm] at h
      dsimp only at h
      cases hgo : RipStack.removeGo c rest with
      | none => rw [hgo] at h; cases h
      | some L'' =>
        rw [hgo] at h
        cases h
        rw [RipStack.width_mk_cons, RipStack.width_mk_cons]
        exact add_le_add_left (ih L'' hgo) _

/-- `Board::accept` preserves width containment of every rip stack,
assuming only that the board's width is non-negative. -/
lemma accept_width_containment (b : Board) (c : Cut)
    (hwid : ∀ r ∈ b.stacks, r.width ≤ b.width) (hbw : 0 ≤ b.width) :
    ∀ r ∈ (b.accept c).2.stacks, r.width ≤ b.width := by
  by_cases hfit : b.length < c.length ∨ b.width < c.width
  · rw [Board.accept_nofit b c hfit]
    exact hwid
  · have hfit' := hfit
    push_neg at hfit'
    obtain ⟨hclb, hcwb⟩ := hfit'
    cases hbs : b.bestStackForCut c
    · by_cases hun : c.length ≤ b.unallocatedLength
      · rw [Board.accept_newlane b c hfit hbs hun]
        intro r hr
        rcases List.mem_append.1 hr with h | h
        · exact hwid r h
        · rcases List.mem_singleton.1 h with rfl
          rw [RipStack.accept_width]
          have h0 : (RipStack.new).width = 0 := rfl
          rw [h0, zero_add]
          exact max_le hbw hcwb
      · rw [Board.accept_reject b c hfit hbs hun]
        exact hwid
    · rename_i i
      rcases bestStackForCut_some b c i hbs with ⟨_, hi, hQ, _, _⟩
      have hacc_wid : ((b.stacks.get ⟨i, hi⟩).accept c).width ≤ b.width := by
        rw [RipStack.accept_width]
        rcases le_or_lt 0 c.width with hcw | hcw
        · rw [max_eq_right hcw]
          exact le_of_lt hQ
        · rw [max_eq_left (le_of_lt hcw), add_zero]
          exact hwid _ (List.get_mem b.stacks i hi)
      by_cases hov : b.length < (Board.mk b.length b.width b.id
          (listModify b.stacks i (fun r => r.accept c))).allocatedLength
      · rw [Board.accept_rollback b c i hfit hbs hov]
        rw [listModify_comp]
        intro r hr
        rcases listModify_mem b.stacks i _ r hr with h | ⟨_, rfl⟩
        · exact hwid r h
        · set r₀ := b.stacks.get ⟨i, hi⟩ with hr₀
          have hacc : r₀.accept c =
              RipStack.mk (r₀.stacks ++ [CrosscutStack.mk [c]]) :=
            RipStack.accept_eq r₀ c
          cases hgo : RipStack.removeGo c (r₀.stacks ++ [CrosscutStack.mk [c]]) with
          | none =>
            have : ((r₀.accept c).remove c).2 = r₀.accept c := by
              rw [hacc]
              unfold RipStack.remove
              rw [hgo]
            rw [this]
            exact hacc_wid
          | some L' =>
            have heq : ((r₀.accept c).remove c).2 = RipStack.mk L' := by
              rw [hacc]
              unfold RipStack.remove
              rw [hgo]
            rw [heq]
            refine le_trans (removeGo_width_le c _ L' hgo) ?_
            rw [← hacc]
            exact hacc_wid
      · rw [Board.accept_join b c i hfit hbs hov]
        intro r hr
        rcases listModify_mem b.stacks i _ r hr with h | ⟨_, rfl⟩
        · exact hwid r h
        · exact hacc_wid

/-! ## Claim theorems -/

/-- C4 (confirmed): length containment.  For every Solution returned by
`compute`, every board satisfies
`sum(lane.length for lane in board.lanes) <= board.length`: no accepted
cut sequence (including appends to an existing lane, which the final code
re-validates and rolls back on overflow) leaves a returned board with
`allocated_length` exceeding `board.length`. -/
theorem c4_length_containment (σ : ℕ → List Cut → List Cut)
    (hσ : ShuffleValid σ) (m : Input) (hm : Input.WF m)
    (attempts resultCount : ℕ) (out : List (List Board))
    (hout : computeWith σ m attempts resultCount = some out) :
    ∀ sol ∈ out, ∀ b ∈ sol,
      ((b.stacks.map RipStack.length).sum ≤ b.length ∧
        b.allocatedLength ≤ b.length) := by
  intro sol hsol b hb
  have hinv := (computeWith_sound σ hσ m hm attempts resultCount out hout
    sol hsol).1 b hb
  have hal := hinv.2.2.1
  exact ⟨by rw [← Board.allocatedLength_eq]; exact hal, hal⟩

/-- Witness for C4 at a concrete run. -/
theorem c4_length_containment_witness :
    (apronBoard.stacks.map RipStack.length).sum ≤ apronBoard.length ∧
      apronBoard.allocatedLength ≤ apronBoard.length :=
  c4_length_containment idShuffle (fun _ l => List.Perm.refl l) M5
    (by refine ⟨?_, ?_, ?_⟩ <;> with_unfolding_all decide) 1 1 [[apronBoard]]
    (by with_unfolding_all decide) [apronBoard] (List.mem_singleton.2 rfl)
    apronBoard (List.mem_singleton.2 rfl)

/-- C6 (confirmed): cut conservation.  The multiset of cuts across all
lanes of every returned Solution is exactly the expanded input cutlist
(each specification contributing `count` instances), even though failed
placement attempts mutate and roll back boards. -/
theorem c6_cut_conservation (σ : ℕ → List Cut → List Cut)
    (hσ : ShuffleValid σ) (m : Input) (hm : Input.WF m)
    (attempts resultCount : ℕ) (out : List (List Board))
    (hout : computeWith σ m attempts resultCount = some out) :
    ∀ sol ∈ out, List.Perm (cutsOfSolution sol) (expandCutlist m) := by
  intro sol hsol
  exact (computeWith_sound σ hσ m hm attempts resultCount out hout sol hsol).2

/-- Witness for C6 at a concrete run. -/
theorem c6_cut_conservation_witness :
    List.Perm (cutsOfSolution [apronBoard]) (expandCutlist M5) :=
  c6_cut_conservation idShuffle (fun _ l => List.Perm.refl l) M5
    (by refine ⟨?_, ?_, ?_⟩ <;> with_unfolding_all decide) 1 1 [[apronBoard]]
    (by with_unfolding_all decide) [apronBoard] (List.mem_singleton.2 rfl)

/-- C7 (confirmed): width containment.  Every lane of every board of every
returned Solution satisfies `lane.width <= board.width`; moreover every
`accept` on a board whose lanes satisfy the bound preserves it (joining an
existing lane demands `lane.width + cut.width < board.width` strictly, and
a new lane's single cut passed the `cut.width <= board.width` guard). -/
theorem c7_width_containment (σ : ℕ → List Cut → List Cut)
    (hσ : ShuffleValid σ) (m : Input) (hm : Input.WF m)
    (attempts resultCount : ℕ) (out : List (List Board))
    (hout : computeWith σ m attempts resultCount = some out) :
    (∀ sol ∈ out, ∀ b ∈ sol, ∀ r ∈ b.stacks, r.width ≤ b.width) ∧
      (∀ (b : Board) (c : Cut), (∀ r ∈ b.stacks, r.width ≤ b.width) →
        0 ≤ b.width → ∀ r ∈ (b.accept c).2.stacks, r.width ≤ b.width) := by
  constructor
  · intro sol hsol b hb
    exact ((computeWith_sound σ hσ m hm attempts resultCount out hout
      sol hsol).1 b hb).2.2.2.1
  · intro b c hwid hbw
    exact accept_width_containment b c hwid hbw

/-- Witness for C7 at a concrete run and a concrete accept. -/
theorem c7_width_containment_witness :
    (∀ sol ∈ [[apronBoard]], ∀ b ∈ sol, ∀ r ∈ b.stacks, r.width ≤ b.width) ∧
      (∀ r ∈ (cb2.accept c2cut).2.stacks, r.width ≤ cb2.width) := by
  have h := c7_width_containment idShuffle (fun _ l => List.Perm.refl l) M5
    (by refine ⟨?_, ?_, ?_⟩ <;> with_unfolding_all decide) 1 1 [[apronBoard]]
    (by with_unfolding_all decide)
  exact ⟨h.1, h.2 cb2 c2cut (by with_unfolding_all decide) (by decide)⟩

/-- C2 counterexample: the claim as stated is false.  Board `cb2`
(100×10, one lane of width 2) offers a qualifying lane for the 10×2 cut
`c2cut` (`2 + 2 < 10`), yet `accept` returns true having created a SECOND
lane — because `unallocated_length >= cut.length` makes
`best_stack_for_cut` prefer a fresh lane (solver.rs:168-169), a condition
the claim omits. -/
theorem c2_lane_selection_counterexample :
    c2cut.length ≤ cb2.length ∧ c2cut.width ≤ cb2.width ∧
      (∃ h : 0 < cb2.stacks.length,
        (cb2.stacks.get ⟨0, h⟩).width + c2cut.width < cb2.width) ∧
      (cb2.accept c2cut).1 = true ∧
      cb2.stacks.length = 1 ∧ (cb2.accept c2cut).2.stacks.length = 2 := by
  refine ⟨by decide, by decide, ⟨by decide, ?_⟩, ?_, by decide, ?_⟩ <;>
    with_unfolding_all decide

/-- C2 (amended): for a cut that fits the board, `accept` appends it to
the qualifying lane (`lane.width + cut.width < board.width`, strict)
minimising `abs(cut.length - lane.length)` and returns true ONLY when, in
addition, the board's unallocated length is below `cut.length`, the best
length difference is under `cut.length / 2`, and the insertion does not
push `allocated_length` past `board.length`; when the insertion overflows
`board.length` it is rolled back (the inserted cut is removed again, the
cut multiset is restored, and `accept` returns false); while unallocated
length remains (and whenever no lane qualifies under those rules) a new
lane is created instead. -/
theorem c2_lane_selection_amended (b : Board) (c : Cut)
    (hl : c.length ≤ b.length) (hw : c.width ≤ b.width) :
    (∀ i, b.bestStackForCut c = some i →
      b.unallocatedLength < c.length ∧
      ∃ hi : i < b.stacks.length,
        (b.stacks.get ⟨i, hi⟩).width + c.width < b.width ∧
        |c.length - (b.stacks.get ⟨i, hi⟩).length| < c.length / 2 ∧
        (∀ k (hk : k < b.stacks.length),
          (b.stacks.get ⟨k, hk⟩).width + c.width < b.width →
          |c.length - (b.stacks.get ⟨i, hi⟩).length| ≤
            |c.length - (b.stacks.get ⟨k, hk⟩).length|) ∧
        ((Board.mk b.length b.width b.id
            (listModify b.stacks i (fun r => r.accept c))).allocatedLength ≤
              b.length →
          b.accept c = (true, Board.mk b.length b.width b.id
            (listModify b.stacks i (fun r => r.accept c)))) ∧
        (b.length < (Board.mk b.length b.width b.id
            (listModify b.stacks i (fun r => r.accept c))).allocatedLength →
          b.accept c = (false, Board.mk b.length b.width b.id
            (listModify b.stacks i (fun r => ((r.accept c).remove c).2))) ∧
          (BoardInv b → 0 ≤ c.length → 0 ≤ c.width →
            List.Perm (cutsOfBoard (Board.mk b.length b.width b.id
                (listModify b.stacks i (fun r => ((r.accept c).remove c).2))))
              (cutsOfBoard b)))) ∧
    (b.bestStackForCut c = none → c.length ≤ b.unallocatedLength →
      b.accept c = (true, Board.mk b.length b.width b.id
        (b.stacks ++ [RipStack.new.accept c]))) := by
  have hfit : ¬(b.length < c.length ∨ b.width < c.width) := by
    push_neg
    exact ⟨hl, hw⟩
  constructor
  · intro i hbs
    rcases bestStackForCut_some b c i hbs with ⟨hun, hi, hQ, hhalf, hmin⟩
    refine ⟨hun, hi, hQ, hhalf, hmin, ?_, ?_⟩
    · intro hno
      exact Board.accept_join b c i hfit hbs (not_lt.2 hno)
    · intro hov
      have heq := Board.accept_rollback b c i hfit hbs hov
      rw [listModify_comp] at heq
      refine ⟨heq, ?_⟩
      intro hb hcl hcw
      have hflag : (b.accept c).1 = false := by rw [heq]
      have hperm := (Board.accept_spec b c hb hcl hcw).2.2 hflag
      rwa [heq] at hperm
  · intro hbs hun
    exact Board.accept_newlane b c hfit hbs hun

/-- Witness for the amended C2: a nearly full 10×5 board whose single
lane (one 9×1 cut) qualifies for the 8×1 cut, which `accept` appends;
and board `cb2r`, where joining the 7×1 cut overflows the board length,
so the insertion is rolled back and `accept` returns false. -/
theorem c2_lane_selection_amended_witness :
    (cb2w.bestStackForCut c2wcut = some 0 ∧
      cb2w.unallocatedLength < c2wcut.length ∧
      cb2w.accept c2wcut = (true, Board.mk cb2w.length cb2w.width cb2w.id
        (listModify cb2w.stacks 0 (fun r => r.accept c2wcut)))) ∧
      (cb2r.bestStackForCut c2rcut = some 0 ∧
        cb2r.accept c2rcut = (false, Board.mk cb2r.length cb2r.width cb2r.id
          (listModify cb2r.stacks 0
            (fun r => ((r.accept c2rcut).remove c2rcut).2))) ∧
        List.Perm (cutsOfBoard (Board.mk cb2r.length cb2r.width cb2r.id
            (listModify cb2r.stacks 0
              (fun r => ((r.accept c2rcut).remove c2rcut).2))))
          (cutsOfBoard cb2r)) := by
  constructor
  · have hbs : cb2w.bestStackForCut c2wcut = some 0 := by
      with_unfolding_all decide
    have h := (c2_lane_selection_amended cb2w c2wcut (by decide) (by decide)).1 0 hbs
    rcases h with ⟨hun, hi, hQ, hhalf, hmin, hacc, _⟩
    exact ⟨hbs, hun, hacc (by with_unfolding_all decide)⟩
  · have hbs : cb2r.bestStackForCut c2rcut = some 0 := by
      with_unfolding_all decide
    have h := (c2_lane_selection_amended cb2r c2rcut (by decide) (by decide)).1 0 hbs
    rcases h with ⟨hun, hi, hQ, hhalf, hmin, _, hroll⟩
    rcases hroll (by with_unfolding_all decide) with ⟨heq, hperm⟩
    refine ⟨hbs, heq, ?_⟩
    refine hperm ?_ (by decide) (by decide)
    refine ⟨by decide, by decide, ?_, ?_, ?_, ?_⟩ <;> with_unfolding_all decide

/-! ## C8: vending -/


lemma find?_min_width :
    ∀ (l : List MBoard),
      List.Sorted (fun a b : MBoard => a.width ≤ b.width) l →
      ∀ (p : MBoard → Bool) (t : MBoard), l.find? p = some t →
      ∀ u ∈ l, p u → t.width ≤ u.width := by
  intro l
  induction l with
  | nil => intro _ p t h; cases h
  | cons x xs ih =>
    intro hs p t h
    rcases List.sorted_cons.1 hs with ⟨hx, hxs⟩
    by_cases hpx : p x
    · rw [List.find?_cons_of_pos _ hpx] at h
      cases h
      intro u hu _
      rcases List.mem_cons.1 hu with rfl | hu'
      · exact le_rfl
      · exact hx u hu'
    · rw [List.find?_cons_of_neg _ hpx] at h
      intro u hu hpu
      rcases List.mem_cons.1 hu with rfl | hu'
      · exact absurd hpu hpx
      · exact ih hxs p t h u hu' hpu

/-- C8 (confirmed): vending instantiates the first template, in
ascending-width order, with `template.width > cut.width` AND
`template.length > cut.length`, both strict; in particular for the
catalog `[Small 10×4, Big 100×4]` and a 50×3 cut it selects `Big`, and a
template matching the cut's dimensions exactly is rejected. -/
theorem c8_vending :
    (∀ (m : Input) (c : Cut) (nb : Board), vendNewBoardForCut m c = some nb →
      ∃ t ∈ m.boards, nb = Board.ofModel t ∧ c.width < t.width ∧
        c.length < t.length ∧
        ∀ u ∈ m.boards, c.width < u.width → c.length < u.length →
          t.width ≤ u.width) ∧
      vendNewBoardForCut M8 cut8 = some (Board.ofModel ⟨100, 4, "Big"⟩) ∧
      vendNewBoardForCut M8eq ⟨50, 3, "c"⟩ = none := by
  refine ⟨?_, by with_unfolding_all decide, by with_unfolding_all decide⟩
  intro m c nb h
  unfold vendNewBoardForCut at h
  rcases Option.map_eq_some'.1 h with ⟨t, ht, rfl⟩
  have hsorted : List.Sorted (fun a b : MBoard => a.width ≤ b.width)
      (m.boards.insertionSort (fun a b => a.width ≤ b.width)) :=
    List.sorted_insertionSort _ m.boards
  have hmemperm := List.perm_insertionSort
    (fun a b : MBoard => a.width ≤ b.width) m.boards
  have htm : t ∈ m.boards := hmemperm.mem_iff.1 (List.mem_of_find?_eq_some ht)
  have hpt := List.find?_some ht
  rw [Bool.and_eq_true, decide_eq_true_iff, decide_eq_true_iff] at hpt
  refine ⟨t, htm, rfl, hpt.1, hpt.2, ?_⟩
  intro u hu hw hl
  refine find?_min_width _ hsorted _ t ht u (hmemperm.mem_iff.2 hu) ?_
  rw [Bool.and_eq_true, decide_eq_true_iff, decide_eq_true_iff]
  exact ⟨hw, hl⟩

/-- Witness for C8's general clause at the §8 example catalog. -/
theorem c8_vending_witness :
    ∃ t ∈ M8.boards, Board.ofModel ⟨100, 4, "Big"⟩ = Board.ofModel t ∧
      cut8.width < t.width ∧ cut8.length < t.length ∧
      ∀ u ∈ M8.boards, cut8.width < u.width → cut8.length < u.length →
        t.width ≤ u.width :=
  c8_vending.1 M8 cut8 (Board.ofModel ⟨100, 4, "Big"⟩)
    (by with_unfolding_all decide)

/-! ## C3: feasibility pre-check -/



/-- C3 (code bug): the claim describes the intended pre-check (abandon
iff some cut is wider than EVERY template), but `is_a_solution_possible`
returns false as soon as some cut is wider than SOME template
(solver.rs:352-358 returns inside the inner loop).  On `M3` — templates
of widths 4 and 8, one cut of width 5 — every cut fits a template and
`generate` actually succeeds, yet `compute` abandons with no attempts. -/
theorem c3_feasibility_code_bug :
    (∀ cm ∈ M3.cutlist, ∃ t ∈ M3.boards, cm.width ≤ t.width) ∧
      isASolutionPossible M3 = false ∧
      computeWith idShuffle M3 1 1 = none ∧
      generate M3 (expandCutlist M3) = some solM3 := by
  with_unfolding_all decide

/-! ## C9: determinism -/


/-- C9 (confirmed): compute is deterministic.  Because the shuffle source
is seeded with the fixed constant 12345 rather than fresh per-invocation
entropy, two invocations with the same arguments — under arbitrarily
different ambient entropy — return identical results. -/
theorem c9_determinism (seedStream : ℕ → ℕ → List Cut → List Cut)
    (e₁ e₂ : ℕ) (m : Input) (attempts resultCount : ℕ) :
    computeInvocation seedStream e₁ m attempts resultCount =
      computeInvocation seedStream e₂ m attempts resultCount := rfl

/-! ## C10: the attempts = 0 legacy path -/

/-- C10 counterexample: the claim as stated fails at `result_count = 0`.
On `M10` the single area-sorted pass places every cut (producing
`sol10`), yet `compute` with `result_count = 0` returns `some []` — not
that Solution. -/
theorem c10_zero_attempts_counterexample :
    computeWith idShuffle M10 0 0 = some [] ∧
      generate M10 (legacyCutOrder M10) = some sol10 ∧
      (some ([] : List (List Board)) ≠ some [sol10]) := by
  with_unfolding_all decide

/-- C10 (amended): with attempts = 0 and the pre-check passing, compute
runs exactly one allocation pass on the expanded cut list stable-sorted
by ascending area; if it places every cut, compute returns exactly that
Solution provided `result_count >= 1` (and an empty list for
`result_count = 0`); if the pass fails, compute reports no solution. -/
theorem c10_zero_attempts_amended (σ : ℕ → List Cut → List Cut) (m : Input)
    (rc : ℕ) (hposs : isASolutionPossible m = true) :
    (∀ sol, generate m (legacyCutOrder m) = some sol → 1 ≤ rc →
      computeWith σ m 0 rc = some [sol]) ∧
      (∀ sol, generate m (legacyCutOrder m) = some sol →
        computeWith σ m 0 0 = some []) ∧
      (generate m (legacyCutOrder m) = none → computeWith σ m 0 rc = none) := by
  have hres : ∀ sol, generate m (legacyCutOrder m) = some sol →
      resultsOf σ m 0 = [sol] := by
    intro sol hgen
    unfold resultsOf
    rw [if_pos rfl, hgen]
  refine ⟨?_, ?_, ?_⟩
  · intro sol hgen hrc
    rw [computeWith_def, if_pos hposs, hres sol hgen]
    rw [if_neg (by simp)]
    have h1 : (([sol] : List (List Board)).insertionSort
        (fun a b : List Board => a.length ≤ b.length)) = [sol] := rfl
    rw [h1]
    have h2 : min rc ([sol] : List (List Board)).length = 1 := by
      simpa using min_eq_right hrc
    rw [h2]
    rfl
  · intro sol hgen
    rw [computeWith_def, if_pos hposs, hres sol hgen]
    rw [if_neg (by simp)]
    rfl
  · intro hgen
    have hres0 : resultsOf σ m 0 = [] := by
      unfold resultsOf
      rw [if_pos rfl, hgen]
    rw [computeWith_def, if_pos hposs, hres0]
    rfl

/-- Witness for the amended C10 on `M10`. -/
theorem c10_zero_attempts_amended_witness :
    computeWith idShuffle M10 0 1 = some [sol10] :=
  (c10_zero_attempts_amended idShuffle M10 1 (by with_unfolding_all decide)).1
    sol10 (by with_unfolding_all decide) le_rfl

/-! ## C1: ranking and truncation -/


/-- C1 counterexample: the claim as stated is false.  On `M1` with the
reversing shuffle stream, two attempts succeed: `sol1` (one board, score
14/15) and `sol2` (two boards, score 1).  Requesting one result returns
`[sol1]` — the fewest-board solution — not the score-descending leader
`sol2`. -/
theorem c1_ranking_counterexample :
    computeWith revShuffle M1 2 1 = some [sol1] ∧
      successList revShuffle M1 2 = [sol1, sol2] ∧
      score sol1 < score sol2 ∧ sol1 ≠ sol2 := by
  with_unfolding_all decide

/-- C1 (amended): for attempts > 0, the returned sequence is a
permutation of the first `min(result_count, successes)` entries of the
success list stable-sorted by ASCENDING BOARD COUNT, arranged in
score-descending order; when `result_count >=` the number of successes it
is a permutation of all successes. -/
theorem c1_ranking_amended (σ : ℕ → List Cut → List Cut) (m : Input)
    (a rc : ℕ) (ha : a ≠ 0) (out : List (List Board))
    (hout : computeWith σ m a rc = some out) :
    out.length = min rc (successList σ m a).length ∧
      List.Perm out (((successList σ m a).insertionSort
        (fun x y : List Board => x.length ≤ y.length)).take
          (min rc (successList σ m a).length)) ∧
      List.Sorted (fun x y : List Board => score y ≤ score x) out ∧
      ((successList σ m a).length ≤ rc →
        List.Perm out (successList σ m a)) := by
  rw [computeWith_def] at hout
  by_cases hp : isASolutionPossible m
  · rw [if_pos hp] at hout
    have hres : resultsOf σ m a = successList σ m a := by
      unfold resultsOf
      rw [if_neg ha]
    rw [hres] at hout
    by_cases hemp : (successList σ m a).isEmpty
    · rw [if_pos hemp] at hout; cases hout
    · rw [if_neg hemp] at hout
      cases hout
      have hlen_sort : ((successList σ m a).insertionSort
          (fun x y : List Board => x.length ≤ y.length)).length =
            (successList σ m a).length := List.length_insertionSort _ _
      refine ⟨?_, ?_, ?_, ?_⟩
      · rw [List.length_insertionSort, List.length_take, hlen_sort]
        exact min_eq_left (min_le_right rc (successList σ m a).length)
      · exact List.perm_insertionSort _ _
      · exact List.sorted_insertionSort _ _
      · intro hrc
        have hmin : min rc (successList σ m a).length =
            (successList σ m a).length := min_eq_right hrc
        have htake : ((successList σ m a).insertionSort
            (fun x y : List Board => x.length ≤ y.length)).take
              (min rc (successList σ m a).length) =
            (successList σ m a).insertionSort
              (fun x y : List Board => x.length ≤ y.length) := by
          rw [hmin, ← hlen_sort]
          exact List.take_length _
        refine List.Perm.trans (List.perm_insertionSort _ _) ?_
        rw [htake]
        exact List.perm_insertionSort _ _
  · rw [if_neg hp] at hout; cases hout

/-- Witness for the amended C1 at the `M1` run. -/
theorem c1_ranking_amended_witness :
    ([sol1] : List (List Board)).length =
        min 1 (successList revShuffle M1 2).length ∧
      List.Perm [sol1] (((successList revShuffle M1 2).insertionSort
        (fun x y : List Board => x.length ≤ y.length)).take
          (min 1 (successList revShuffle M1 2).length)) ∧
      List.Sorted (fun x y : List Board => score y ≤ score x) [sol1] ∧
      ((successList revShuffle M1 2).length ≤ 1 →
        List.Perm [sol1] (successList revShuffle M1 2)) :=
  c1_ranking_amended revShuffle M1 2 1 (by decide) [sol1]
    (by with_unfolding_all decide)

/-! ## C5: the end-to-end Apron example -/

lemma perm_pair_eq (c : Cut) (l : List Cut) (h : List.Perm l [c, c]) :
    l = [c, c] := by
  have hrep : ([c, c] : List Cut) = List.replicate 2 c := rfl
  have hlen : l.length = 2 := by simpa using h.length_eq
  have hmem : ∀ x ∈ l, x = c := by
    intro x hx
    have hx2 := h.mem_iff.1 hx
    simpa using hx2
  have : l = List.replicate 2 c := by
    rw [List.eq_replicate_iff]
    exact ⟨hlen, hmem⟩
  rw [this, ← hrep]

lemma filterMap_congr_mem {α β : Type} (l : List α) (f g : α → Option β)
    (h : ∀ a ∈ l, f a = g a) : l.filterMap f = l.filterMap g := by
  induction l with
  | nil => rfl
  | cons x xs ih =>
    rw [List.filterMap_cons, List.filterMap_cons,
      h x (List.mem_cons_self x xs), ih fun a ha => h a (List.mem_cons_of_mem _ ha)]

lemma c5_attemptList (σ : ℕ → List Cut → List Cut) (hσ : ShuffleValid σ) :
    ∀ i, attemptList σ [apronCut, apronCut] i = [apronCut, apronCut] := by
  intro i
  induction i with
  | zero => exact perm_pair_eq apronCut _ (hσ 0 _)
  | succ n ih =>
    show σ (n + 1) (attemptList σ [apronCut, apronCut] n) = _
    rw [ih]
    exact perm_pair_eq apronCut _ (hσ (n + 1) _)

lemma filterMap_const_some {α β : Type} (b : β) (l : List α) :
    l.filterMap (fun _ => some b) = List.replicate l.length b := by
  induction l with
  | nil => rfl
  | cons x xs ih => simp [List.filterMap_cons, ih, List.replicate_succ]

lemma c5_successList (σ : ℕ → List Cut → List Cut) (hσ : ShuffleValid σ)
    (a : ℕ) : successList σ M5 a = List.replicate a [apronBoard] := by
  unfold successList
  have hexp : expandCutlist M5 = [apronCut, apronCut] := by
    with_unfolding_all decide
  have hstep : ∀ i ∈ List.range a,
      generate M5 (attemptList σ (expandCutlist M5) i) =
        (fun _ : ℕ => some [apronBoard]) i := by
    intro i _
    rw [hexp, c5_attemptList σ hσ i]
    show generate M5 [apronCut, apronCut] = some [apronBoard]
    with_unfolding_all decide
  rw [filterMap_congr_mem _ _ _ hstep, filterMap_const_some, List.length_range]

/-- C5 counterexample: the claim as stated is false.  On the §8 example,
the Solution returned by `compute` holds board `A` with TWO lanes (each
holding one Apron cut), not one lane holding both. -/
theorem c5_end_to_end_counterexample :
    computeWith idShuffle M5 1 1 = some [[apronBoard]] ∧
      apronBoard.stacks.length = 2 ∧ apronBoard.stacks.length ≠ 1 ∧
      (∀ r ∈ apronBoard.stacks, r.stacks.length = 1) := by
  with_unfolding_all decide

/-- C5 (amended): on the §8 example (templates `[{96,8,A}]`, two 18×3
Apron cuts, spacing 0) with `attempts >= 1` and `result_count >= 1`,
compute succeeds and every returned Solution is exactly one board `A`
holding TWO lanes, one Apron cut each, with every lane score 1 and board
score 1. -/
theorem c5_end_to_end_amended (σ : ℕ → List Cut → List Cut)
    (hσ : ShuffleValid σ) (a rc : ℕ) (ha : 1 ≤ a) (hrc : 1 ≤ rc) :
    ∃ out, computeWith σ M5 a rc = some out ∧ out ≠ [] ∧
      (∀ sol ∈ out, sol = [apronBoard]) ∧
      apronBoard.id = "A" ∧ apronBoard.stacks.length = 2 ∧
      (∀ r ∈ apronBoard.stacks, cutsOfRip r = [apronCut] ∧ r.score = 1) ∧
      apronBoard.score = some 1 := by
  have hane : a ≠ 0 := Nat.one_le_iff_ne_zero.1 ha
  have hres : resultsOf σ M5 a = List.replicate a [apronBoard] := by
    unfold resultsOf
    rw [if_neg hane]
    exact c5_successList σ hσ a
  have hposs : isASolutionPossible M5 = true := by decide
  have hemp : (List.replicate a [apronBoard]).isEmpty = false := by
    cases a with
    | zero => exact absurd rfl hane
    | succ n => rfl
  refine ⟨(((List.replicate a [apronBoard]).insertionSort
      (fun x y : List Board => x.length ≤ y.length)).take
        (min rc (List.replicate a [apronBoard]).length)).insertionSort
      (fun x y => score y ≤ score x), ?_, ?_, ?_, rfl, rfl, ?_, ?_⟩
  · rw [computeWith_def, if_pos hposs, hres, hemp]
    rw [if_neg (by simp)]
  · -- the output is non-empty
    have hlen : ((((List.replicate a [apronBoard]).insertionSort
        (fun x y : List Board => x.length ≤ y.length)).take
          (min rc (List.replicate a [apronBoard]).length)).insertionSort
        (fun x y => score y ≤ score x)).length = min rc a := by
      rw [List.length_insertionSort, List.length_take,
        List.length_insertionSort, List.length_replicate]
      exact min_eq_left (min_le_right rc a)
    intro hnil
    rw [hnil] at hlen
    have : 0 < min rc a := lt_min (lt_of_lt_of_le Nat.zero_lt_one hrc)
      (lt_of_lt_of_le Nat.zero_lt_one ha)
    simp at hlen
    omega
  · intro sol hsol
    have h1 : sol ∈ ((List.replicate a [apronBoard]).insertionSort
        (fun x y : List Board => x.length ≤ y.length)).take
          (min rc (List.replicate a [apronBoard]).length) :=
      (List.Perm.mem_iff (List.perm_insertionSort _ _)).1 hsol
    have h2 := List.take_subset _ _ h1
    have h3 : sol ∈ List.replicate a [apronBoard] :=
      (List.Perm.mem_iff (List.perm_insertionSort _ _)).1 h2
    exact List.eq_of_mem_replicate h3
  · intro r hr
    have h2 : r = RipStack.mk [CrosscutStack.mk [apronCut]] := by
      have : apronBoard.stacks =
          [RipStack.mk [CrosscutStack.mk [apronCut]],
            RipStack.mk [CrosscutStack.mk [apronCut]]] := rfl
      rw [this] at hr
      rcases List.mem_cons.1 hr with rfl | hr'
      · rfl
      · exact List.mem_singleton.1 hr'
    rw [h2]
    constructor
    · rfl
    · with_unfolding_all decide
  · with_unfolding_all decide

/-- Witness for the amended C5 at a concrete run. -/
theorem c5_end_to_end_amended_witness :
    ∃ out, computeWith idShuffle M5 1 1 = some out ∧ out ≠ [] ∧
      (∀ sol ∈ out, sol = [apronBoard]) ∧
      apronBoard.id = "A" ∧ apronBoard.stacks.length = 2 ∧
      (∀ r ∈ apronBoard.stacks, cutsOfRip r = [apronCut] ∧ r.score = 1) ∧
      apronBoard.score = some 1 :=
  c5_end_to_end_amended idShuffle (fun _ l => List.Perm.refl l) 1 1 le_rfl le_rfl

end Cutlist
